import Mathlib

/-
Verification of the john-code agent core against its specification.

The development shallowly embeds the Go sources of the repository:
pure functions become Lean functions, the streaming decode loops become
folds over lists of already-parsed wire events (HTTP transport and JSON
text decoding are external I/O and are modelled as parameters or as
event lists), Go maps become association lists with unique keys, and
the unspecified iteration order of a Go map is modelled as an arbitrary
permutation of the entries.
-/

set_option maxHeartbeats 1000000

namespace JohnCode

/-! ## JSON values

Go's `interface{}` holding decoded JSON (`map[string]interface{}`,
`[]interface{}`, scalars) is modelled as a mutual inductive so that all
recursion over it is structural. -/

mutual

inductive Json where
  | null : Json
  | bool (b : Bool) : Json
  | num (n : Int) : Json
  | str (s : String) : Json
  | arr (items : JsonArr) : Json
  | obj (fields : JsonObj) : Json
  deriving DecidableEq

inductive JsonArr where
  | nil : JsonArr
  | cons (hd : Json) (tl : JsonArr) : JsonArr
  deriving DecidableEq

inductive JsonObj where
  | nil : JsonObj
  | cons (key : String) (val : Json) (tl : JsonObj) : JsonObj
  deriving DecidableEq

end

/-- Argument maps (`map[string]interface{}` used for tool-call arguments)
are modelled as association lists of JSON values. -/
abbrev ArgsMap := List (String × Json)

/-! ## Association-list operations modelling Go maps

`lookupA` models `m[k]` (with ok-flag), `insertA` models `m[k] = v`
(replacement in place keeps the insertion order of keys, which is all
that can be said about a Go map's contents), `eraseA` models
`delete(m, k)`. -/

/-- Lookup in an association list, first matching key. -/
def lookupA {κ α : Type _} [DecidableEq κ] : List (κ × α) → κ → Option α
  | [], _ => none
  | (k, v) :: tl, key => if k = key then some v else lookupA tl key

/-- Insert or replace in an association list; a present key is replaced in
place, an absent key is appended at the end. -/
def insertA {κ α : Type _} [DecidableEq κ] : List (κ × α) → κ → α → List (κ × α)
  | [], key, val => [(key, val)]
  | (k, v) :: tl, key, val =>
    if k = key then (key, val) :: tl else (k, v) :: insertA tl key val

/-- Remove the first entry with the given key. -/
def eraseA {κ α : Type _} [DecidableEq κ] : List (κ × α) → κ → List (κ × α)
  | [], _ => []
  | (k, v) :: tl, key => if k = key then tl else (k, v) :: eraseA tl key

/-! ## Conversation model (pkg/llm models.go) -/

/-- Role of a conversation message. -/
inductive Role where
  | user | assistant | system | tool
  deriving DecidableEq

/-- A tool call emitted by the assistant (`llm.ToolCall`). -/
structure ToolCall where
  id : String
  name : String
  args : ArgsMap
  deriving DecidableEq

/-- A tool result (`llm.ToolResult`). -/
structure ToolResult where
  toolCallID : String
  toolName : String
  content : String
  deriving DecidableEq

/-- A conversation message (`llm.Message`). -/
structure Message where
  role : Role
  content : String
  images : List String := []
  toolCalls : List ToolCall := []
  toolResult : Option ToolResult := none
  deriving DecidableEq

/-! ## Gemini schema sanitizer (pkg/llm/gemini.go) -/

/-- The `unsupportedFields` list of `sanitizeSchemaForGemini`, verbatim from
the source. -/
def unsupportedFields : List String :=
  ["$schema", "additionalProperties", "$id", "$ref", "$defs", "definitions",
   "default", "examples", "const", "contentMediaType", "contentEncoding",
   "if", "then", "else", "allOf", "anyOf", "oneOf", "not",
   "patternProperties", "propertyNames", "unevaluatedProperties",
   "unevaluatedItems", "dependentSchemas", "dependentRequired",
   "minContains", "maxContains", "contains"]

/-- The disallowed keywords as enumerated by the specification text
(section 4.1).  This definition follows the spec's words, for comparison
with the source's `unsupportedFields`; note it does not contain `$id`. -/
def specDisallowedKeywords : List String :=
  ["$schema", "additionalProperties", "$ref", "$defs", "definitions",
   "default", "examples", "const", "contentMediaType", "contentEncoding",
   "if", "then", "else", "allOf", "anyOf", "oneOf", "not",
   "patternProperties", "propertyNames", "unevaluatedProperties",
   "unevaluatedItems", "dependentSchemas", "dependentRequired",
   "minContains", "maxContains", "contains"]

mutual

/-- Translation of `sanitizeSchemaForGemini`: a non-object value (nil,
scalar, or array) at the top level is returned unchanged; an object has
its unsupported keys dropped and the remaining values sanitized. -/
def sanitizeSchemaForGemini : Json → Json
  | .obj fields => .obj (sanitizeFields fields)
  | other => other

/-- The body of the `for key, value := range schemaMap` loop: skip
unsupported keys, transform the kept values. -/
def sanitizeFields : JsonObj → JsonObj
  | .nil => .nil
  | .cons k v tl =>
    if k ∈ unsupportedFields then sanitizeFields tl
    else .cons k (sanitizeFieldVal v) (sanitizeFields tl)

/-- The `switch v := value.(type)` of the loop: recurse into object
values, recurse into array values item-wise, keep everything else. -/
def sanitizeFieldVal : Json → Json
  | .obj f => .obj (sanitizeFields f)
  | .arr items => .arr (sanitizeArrItems items)
  | other => other

/-- The array case of the loop: visit the items. -/
def sanitizeArrItems : JsonArr → JsonArr
  | .nil => .nil
  | .cons hd tl => .cons (sanitizeItem hd) (sanitizeArrItems tl)

/-- An item that is a map is sanitized, any other item (including a
nested array) is kept verbatim. -/
def sanitizeItem : Json → Json
  | .obj f => .obj (sanitizeFields f)
  | other => other

end

mutual

/-- Whether a key occurs in some object at any nesting depth. -/
def jsonHasKey : Json → String → Bool
  | .obj fields, k => objHasKey fields k
  | .arr items, k => arrHasKey items k
  | _, _ => false

/-- Whether a key occurs in this object or below any of its values. -/
def objHasKey : JsonObj → String → Bool
  | .nil, _ => false
  | .cons key v tl, k => key == k || jsonHasKey v k || objHasKey tl k

/-- Whether a key occurs below any item of this array. -/
def arrHasKey : JsonArr → String → Bool
  | .nil, _ => false
  | .cons hd tl, k => jsonHasKey hd k || arrHasKey tl k

end

/-- Top-level key membership in an object. -/
def objMemKey : JsonObj → String → Bool
  | .nil, _ => false
  | .cons key _ tl, k => key == k || objMemKey tl k

mutual

/-- Values whose every object is reached by the sanitizer's recursion:
objects recurse into all field values, arrays may contain objects and
scalars but not nested arrays (the sanitizer keeps those verbatim). -/
def goodVal : Json → Bool
  | .obj f => goodFields f
  | .arr xs => goodItems xs
  | _ => true

/-- Pointwise `goodVal` over an object's values. -/
def goodFields : JsonObj → Bool
  | .nil => true
  | .cons _ v tl => goodVal v && goodFields tl

/-- Array items reached by the sanitizer: object items recurse, scalar
items carry no keys, array items are not reached (hence excluded). -/
def goodItems : JsonArr → Bool
  | .nil => true
  | .cons hd tl => goodItem hd && goodItems tl

/-- One array item: an object with good fields, or a scalar. -/
def goodItem : Json → Bool
  | .obj f => goodFields f
  | .arr _ => false
  | _ => true

end

/-! ## Anthropic streaming decode (AnthropicClient.GenerateStream)

The SSE framing (`data: ` prefix, `[DONE]` sentinel, skipped malformed
JSON) and the HTTP layer are I/O; the embedding starts from the list of
decoded `sseEvent` values and reproduces the event switch exactly.
`json.Unmarshal` of an argument buffer is an external library call and is
a parameter `parse`; `nil` on failure becomes `none`, and the source's
fallback to an empty map becomes `Option.getD parse []`. -/

/-- Decoded `sseDelta`. -/
structure SseDelta where
  type : String
  text : String := ""
  partialJSON : String := ""
  deriving DecidableEq

/-- The fields of a decoded `content_block` used by the stream loop. -/
structure SseContentBlock where
  type : String
  id : String := ""
  name : String := ""
  deriving DecidableEq

/-- Decoded `apiError`. -/
structure ApiError where
  type : String := ""
  message : String
  deriving DecidableEq

/-- Decoded `sseEvent`. -/
structure SseEvent where
  type : String
  delta : Option SseDelta := none
  contentBlock : Option SseContentBlock := none
  index : Int := 0
  error : Option ApiError := none
  deriving DecidableEq

/-- The `toolBuilder` accumulator of the Anthropic stream loop. -/
structure ToolBuilder where
  id : String
  name : String
  jsonBuffer : String
  deriving DecidableEq

/-- State of the Anthropic stream loop: the assembled message content and
tool calls, the fragments sent to the output channel (in emission order),
and the open builders keyed by block index. -/
structure AnthState where
  content : String := ""
  emitted : List String := []
  toolCalls : List ToolCall := []
  builders : List (Int × ToolBuilder) := []
  deriving DecidableEq

/-- One iteration of the Anthropic event switch. -/
def anthropicStep (parse : String → Option ArgsMap) (st : AnthState)
    (ev : SseEvent) : Except String AnthState :=
  if ev.type = "error" then
    match ev.error with
    | some e => .error ("API stream error: " ++ e.message)
    | none => .ok st
  else if ev.type = "content_block_start" then
    match ev.contentBlock with
    | some cb =>
      if cb.type = "tool_use" then
        .ok { st with builders := insertA st.builders ev.index ⟨cb.id, cb.name, ""⟩ }
      else .ok st
    | none => .ok st
  else if ev.type = "content_block_delta" then
    match ev.delta with
    | some d =>
      if d.type = "text_delta" then
        .ok { st with content := st.content ++ d.text, emitted := st.emitted ++ [d.text] }
      else if d.type = "input_json_delta" then
        match lookupA st.builders ev.index with
        | some tb =>
          .ok { st with
                builders := insertA st.builders ev.index
                  { tb with jsonBuffer := tb.jsonBuffer ++ d.partialJSON } }
        | none => .ok st
      else .ok st
    | none => .ok st
  else if ev.type = "content_block_stop" then
    match lookupA st.builders ev.index with
    | some tb =>
      .ok { st with
        toolCalls := st.toolCalls ++ [⟨tb.id, tb.name, (parse tb.jsonBuffer).getD []⟩],
        builders := eraseA st.builders ev.index }
    | none => .ok st
  else .ok st

/-- The Anthropic stream loop over a list of decoded events; an error
event aborts with the source's error message. -/
def anthropicRun (parse : String → Option ArgsMap) :
    List SseEvent → AnthState → Except String AnthState
  | [], st => .ok st
  | ev :: rest, st =>
    match anthropicStep parse st ev with
    | .error e => .error e
    | .ok st' => anthropicRun parse rest st'

/-- A tool-call event group of the Anthropic wire shape: a
`content_block_start` of type `tool_use`, argument fragments, then a
`content_block_stop`, all at one block index. -/
structure AGroup where
  index : Int
  id : String
  name : String
  frags : List String
  deriving DecidableEq

/-- The `content_block_start` event opening a tool-use block. -/
def anthStartEvent (g : AGroup) : SseEvent :=
  { type := "content_block_start",
    contentBlock := some { type := "tool_use", id := g.id, name := g.name },
    index := g.index }

/-- An `input_json_delta` event carrying one argument fragment. -/
def anthDeltaEvent (idx : Int) (f : String) : SseEvent :=
  { type := "content_block_delta",
    delta := some { type := "input_json_delta", partialJSON := f },
    index := idx }

/-- The `content_block_stop` event closing a block. -/
def anthStopEvent (idx : Int) : SseEvent :=
  { type := "content_block_stop", index := idx }

/-- The events of one Anthropic tool-call group, in wire order. -/
def anthGroupEvents (g : AGroup) : List SseEvent :=
  anthStartEvent g :: g.frags.map (anthDeltaEvent g.index) ++ [anthStopEvent g.index]

/-- The tool call the Anthropic loop assembles from one group. -/
def anthExpected (parse : String → Option ArgsMap) (g : AGroup) : ToolCall :=
  ⟨g.id, g.name, (parse (String.join g.frags)).getD []⟩

/-! ## OpenAI Responses-API streaming decode (OpenAIClient.GenerateStream)

Embedding of the event switch of the second (Responses API) revision:
text deltas accumulate and are forwarded; function-call argument deltas
accumulate in a map of builders keyed by call id; the done event sets the
name and, when it carries the full argument blob, replaces the buffer.
Finalization iterates the builders map, whose iteration order Go leaves
unspecified: it is a parameter required to be a permutation of the keys. -/

/-- Decoded `openAIStreamEvent`. -/
structure OpenAIStreamEvent where
  type : String
  itemID : String := ""
  outputIndex : Int := 0
  delta : String := ""
  name : String := ""
  callID : String := ""
  arguments : String := ""
  deriving DecidableEq

/-- The `funcCallBuilder` accumulator. -/
structure FuncCallBuilder where
  callID : String
  name : String := ""
  argsBuffer : String := ""
  deriving DecidableEq

/-- State of the OpenAI stream loop. -/
structure OAState where
  content : String := ""
  emitted : List String := []
  builders : List (String × FuncCallBuilder) := []
  deriving DecidableEq

/-- One iteration of the OpenAI event switch. -/
def openAIStep (st : OAState) (ev : OpenAIStreamEvent) : OAState :=
  if ev.type = "response.output_text.delta" then
    if ev.delta ≠ "" then
      { st with content := st.content ++ ev.delta, emitted := st.emitted ++ [ev.delta] }
    else st
  else if ev.type = "response.function_call_arguments.delta" then
    if ev.callID ≠ "" then
      match lookupA st.builders ev.callID with
      | some b =>
        { st with
          builders := insertA st.builders ev.callID
            { b with argsBuffer := b.argsBuffer ++ ev.delta } }
      | none =>
        { st with
          builders := insertA st.builders ev.callID
            { callID := ev.callID, argsBuffer := ev.delta } }
    else st
  else if ev.type = "response.function_call_arguments.done" then
    if ev.callID ≠ "" then
      match lookupA st.builders ev.callID with
      | some b =>
        { st with
          builders := insertA st.builders ev.callID
            { b with name := ev.name,
                     argsBuffer := if ev.arguments ≠ "" then ev.arguments else b.argsBuffer } }
      | none =>
        { st with
          builders := insertA st.builders ev.callID
            { callID := ev.callID, name := ev.name, argsBuffer := ev.arguments } }
    else st
  else st

/-- The OpenAI stream loop over a list of decoded events. -/
def openAIRun : List OpenAIStreamEvent → OAState → OAState
  | [], st => st
  | ev :: rest, st => openAIRun rest (openAIStep st ev)

/-- Finalization of the OpenAI loop: the `for _, builder := range
funcCallBuilders` loop, iterating the map in the unspecified order
`iterOrder`; a failed argument parse yields an empty argument map. -/
def openAIFinalize (parse : String → Option ArgsMap) (st : OAState)
    (iterOrder : List String) : List ToolCall :=
  iterOrder.filterMap (fun k =>
    (lookupA st.builders k).map (fun b => ⟨b.callID, b.name, (parse b.argsBuffer).getD []⟩))

/-- A tool-call event group of the OpenAI wire shape: argument delta
events followed by a done event (which may carry the complete blob). -/
structure OGroup where
  callID : String
  name : String
  frags : List String
  doneArgs : String
  deriving DecidableEq

/-- An argument-delta event of one function call. -/
def oDeltaEvent (cid : String) (f : String) : OpenAIStreamEvent :=
  { type := "response.function_call_arguments.delta", callID := cid, delta := f }

/-- The done event closing one function call. -/
def oDoneEvent (g : OGroup) : OpenAIStreamEvent :=
  { type := "response.function_call_arguments.done", callID := g.callID,
    name := g.name, arguments := g.doneArgs }

/-- The events of one OpenAI function-call group, in wire order. -/
def oGroupEvents (g : OGroup) : List OpenAIStreamEvent :=
  g.frags.map (oDeltaEvent g.callID) ++ [oDoneEvent g]

/-- The argument buffer the OpenAI loop holds after one group: the done
event's blob when present, else the concatenated fragments. -/
def oExpectedBuf (g : OGroup) : String :=
  if g.doneArgs ≠ "" then g.doneArgs else String.join g.frags

/-- The tool call the OpenAI loop assembles from one group. -/
def oExpected (parse : String → Option ArgsMap) (g : OGroup) : ToolCall :=
  ⟨g.callID, g.name, (parse (oExpectedBuf g)).getD []⟩

/-! ## Gemini streaming decode (GeminiClient.GenerateStream)

Gemini sends monolithic per-candidate parts: a part carries text and/or a
complete function call; ids are synthesized from a running counter. -/

/-- Decoded `geminiFunctionCall`. -/
structure GeminiFunctionCall where
  name : String
  args : ArgsMap
  deriving DecidableEq

/-- Decoded `geminiPart` (the fields the stream loop reads). -/
structure GeminiPart where
  text : String := ""
  functionCall : Option GeminiFunctionCall := none
  deriving DecidableEq

/-- Decoded `geminiCandidate` content parts. -/
structure GeminiCandidate where
  parts : List GeminiPart
  deriving DecidableEq

/-- Decoded `geminiStreamChunk`. -/
structure GeminiChunk where
  candidates : List GeminiCandidate
  deriving DecidableEq

/-- State of the Gemini stream loop. -/
structure GemState where
  content : String := ""
  emitted : List String := []
  toolCalls : List ToolCall := []
  toolCallIndex : Nat := 0
  deriving DecidableEq

/-- The body of the Gemini per-part loop. -/
def geminiPartStep (st : GemState) (p : GeminiPart) : GemState :=
  let st1 :=
    if p.text ≠ "" then
      { st with content := st.content ++ p.text, emitted := st.emitted ++ [p.text] }
    else st
  match p.functionCall with
  | some fc =>
    { st1 with
      toolCalls := st1.toolCalls ++
        [⟨"call_" ++ toString st1.toolCallIndex, fc.name, fc.args⟩],
      toolCallIndex := st1.toolCallIndex + 1 }
  | none => st1

/-- The Gemini loop over a flat list of parts. -/
def geminiRunParts : List GeminiPart → GemState → GemState
  | [], st => st
  | p :: rest, st => geminiRunParts rest (geminiPartStep st p)

/-- The Gemini loop over chunks and candidates, exactly the source's
nested `for chunk / for candidate / for part` iteration. -/
def geminiRunChunks (chunks : List GeminiChunk) (st : GemState) : GemState :=
  chunks.foldl (fun st c =>
    c.candidates.foldl (fun st cand => geminiRunParts cand.parts st) st) st

/-! ## Agent loop (Agent.processTurn, Agent.RunTask)

The LLM client is modelled as a script: the list of assistant messages it
returns on successive calls (a scripted adapter).  A tool is its name and
an execution function returning Go's `(string, error)` pair.  The
registry is a name-keyed map.  The per-turn iteration bound is the
`maxTurns` argument; the source hard-codes it (50 in the later revision,
10 in the earlier one). -/

/-- A registered tool: name plus `Execute`, returning `(result, err)`. -/
structure AgentTool where
  name : String
  exec : ArgsMap → String × Option String

/-- The tool registry, keyed by tool name. -/
abbrev Registry := List (String × AgentTool)

/-- Registry lookup (`a.tools.Get(tc.Name)`). -/
def registryGet (reg : Registry) (n : String) : Option AgentTool :=
  lookupA reg n

/-- The body of the tool-dispatch loop for one tool call: an absent tool
or a failing `Execute` becomes error text in the `ToolResult`; a
role-tool message carrying the result is produced in every case. -/
def dispatchOne (reg : Registry) (tc : ToolCall) : Message :=
  let result :=
    match registryGet reg tc.name with
    | none => "Error: Tool " ++ tc.name ++ " not found"
    | some t =>
      match t.exec tc.args with
      | (res, none) => res
      | (_, some e) => "Error executing tool: " ++ e
  { role := .tool, content := "", toolResult := some ⟨tc.id, "", result⟩ }

/-- Outcome of `processTurn`: final history, number of model calls made,
number of tool-execution rounds, and success or the fatal error. -/
structure TurnOutcome where
  hist : List Message
  modelCalls : Nat
  toolRounds : Nat
  result : Except String Unit

/-- Translation of `processTurn`'s `for i := 0; i < maxTurns; i++` loop.
Each iteration consumes the scripted client's next response, appends it
to history, stops successfully if it has no tool calls, and otherwise
appends one tool-result message per tool call, in order.  An exhausted
bound is the fatal `max turns reached` failure; an exhausted script
models the `generation produced no response` guard. -/
def processTurn (reg : Registry) : List Message → List Message → Nat → TurnOutcome
  | _, hist, 0 => ⟨hist, 0, 0, .error "max turns reached"⟩
  | [], hist, _ + 1 => ⟨hist, 0, 0, .error "generation produced no response"⟩
  | resp :: rest, hist, b + 1 =>
    let hist1 := hist ++ [resp]
    if resp.toolCalls = [] then ⟨hist1, 1, 0, .ok ()⟩
    else
      let out := processTurn reg rest (hist1 ++ resp.toolCalls.map (dispatchOne reg)) b
      ⟨out.hist, out.modelCalls + 1, out.toolRounds + 1, out.result⟩

/-- Translation of `RunTask`'s result extraction: on success the last
history entry's content when it is an assistant message. -/
def runTaskResult (o : TurnOutcome) : Except String String :=
  match o.result with
  | .error e => .error e
  | .ok () =>
    match o.hist.getLast? with
    | some last => if last.role = .assistant then .ok last.content else .ok "Task completed with no output"
    | none => .ok "Task completed with no output"

/-! ## MCP client (pkg/mcp manager.go): JSON-RPC framing and correlation

`sendRequest` assigns a fresh id, registers a single-use response slot
under that id, then writes the request bytes, and removes the slot when
the call finishes.  `readResponses` routes each decoded response to the
slot registered under its id.  The state records the pending slots, and
a log of `registered`/`wrote` events in program order so that the claimed
ordering is visible; response arrival order is an arbitrary list. -/

/-- Decoded `JSONRPCError`. -/
structure JSONRPCError where
  code : Int
  message : String
  deriving DecidableEq

/-- Decoded `JSONRPCResponse`; the raw result payload is opaque text. -/
structure JRResponse where
  id : Nat
  result : String := ""
  rpcError : Option JSONRPCError := none
  deriving DecidableEq

/-- Events of the client, in program order. -/
inductive McpEvent where
  | registered (id : Nat)
  | wrote (id : Nat)
  deriving DecidableEq

/-- Client state: the id counter, the pending response slots keyed by
request id (`none` = still waiting), and the event log. -/
structure McpClientState where
  nextID : Nat := 0
  pending : List (Nat × Option JRResponse) := []
  log : List McpEvent := []

/-- The id-assignment and slot-registration prefix of `sendRequest`:
increment the id counter, register an empty slot under the new id, then
write the request — in that order. -/
def sendRequestStart (st : McpClientState) : Nat × McpClientState :=
  let id := st.nextID + 1
  (id, { nextID := id,
         pending := st.pending ++ [(id, none)],
         log := st.log ++ [.registered id, .wrote id] })

/-- Issue `n` requests one after another. -/
def startRequests (st : McpClientState) : Nat → McpClientState
  | 0 => st
  | n + 1 => startRequests (sendRequestStart st).2 n

/-- One iteration of `readResponses`: route the decoded response to the
slot registered under its id, if any; a second response for an already
fulfilled slot, or an unknown id, is dropped (the source's channel has
capacity one and unknown ids are skipped). -/
def deliverResponse (st : McpClientState) (r : JRResponse) : McpClientState :=
  match lookupA st.pending r.id with
  | some none => { st with pending := insertA st.pending r.id (some r) }
  | some (some _) => st
  | none => st

/-- Route a list of responses in their wire-arrival order. -/
def deliverAll (st : McpClientState) (rs : List JRResponse) : McpClientState :=
  rs.foldl deliverResponse st

/-- The receive of `sendRequest`: the value a caller waiting on id reads
from its slot (available once fulfilled). -/
def awaitedResponse (st : McpClientState) (id : Nat) : Option JRResponse :=
  match lookupA st.pending id with
  | some (some r) => some r
  | _ => none

/-- The deferred cleanup of `sendRequest`: remove the slot. -/
def removeSlot (st : McpClientState) (id : Nat) : McpClientState :=
  { st with pending := eraseA st.pending id }

/-- Remove the slots of all the given ids (each call's deferred cleanup). -/
def removeSlots (st : McpClientState) (ids : List Nat) : McpClientState :=
  ids.foldl removeSlot st

/-- One event occurs strictly before another in a log. -/
def eventPrecedes (l : List McpEvent) (a b : McpEvent) : Prop :=
  ∃ l1 l2 l3, l = l1 ++ a :: (l2 ++ b :: l3)

/-! ## JSON-RPC request serialization (sendNotification)

`JSONRPCRequest` carries the struct tags `jsonrpc`, `id`, `method`, and
`params,omitempty`; only `Params` has `omitempty`, so `encoding/json`
always emits the `id` field.  The serialized object is modelled as its
field list in struct order. -/

/-- The `JSONRPCRequest` struct. -/
structure JSONRPCRequest where
  jsonrpc : String
  id : Nat
  method : String
  params : Option Json
  deriving DecidableEq

/-- The fields `encoding/json` emits for a `JSONRPCRequest`: `jsonrpc`,
`id` and `method` unconditionally (no `omitempty` tag), `params` only
when non-nil. -/
def jsonrpcSerializedFields (r : JSONRPCRequest) : List (String × Json) :=
  [("jsonrpc", .str r.jsonrpc), ("id", .num (Int.ofNat r.id)), ("method", .str r.method)]
  ++ (match r.params with
      | none => []
      | some p => [("params", p)])

/-- The request value `sendNotification` marshals: id hard-coded to 0
with the source comment "Notifications don't have an ID". -/
def sendNotificationRequest (method : String) (params : Option Json) : JSONRPCRequest :=
  { jsonrpc := "2.0", id := 0, method := method, params := params }

/-! ## Background process supervisor (pkg/tools shell_manager.go, buffer.go)

`bytes.Buffer` keeps written data and a read offset: `Read` consumes,
`Write` appends, `String` returns the unread remainder without consuming.
`ThreadSafeBuffer` adds a mutex around these, which a sequential
embedding needs not represent. -/

/-- Model of `bytes.Buffer` inside `ThreadSafeBuffer`. -/
structure GoBuffer where
  data : String := ""
  readOff : Nat := 0
  deriving DecidableEq

/-- The `String()` accessor: the unread contents, not consumed. -/
def GoBuffer.contents (b : GoBuffer) : String :=
  b.data.drop b.readOff

/-- The `Write` method: append. -/
def GoBuffer.writeStr (b : GoBuffer) (s : String) : GoBuffer :=
  { b with data := b.data ++ s }

/-- The `Read` method: consume up to `n` characters (destructive, unlike
`String`). -/
def GoBuffer.readStr (b : GoBuffer) (n : Nat) : String × GoBuffer :=
  ((b.data.drop b.readOff).take n,
   { b with readOff := min (b.readOff + n) b.data.length })

/-- A `BackgroundProcess` record (start time and the live handle carry no
verified behavior and are omitted/opaque). -/
structure BackgroundProcess where
  id : String
  outputBuf : GoBuffer
  done : Bool
  procError : Option String
  deriving DecidableEq

/-- The supervisor's table. -/
structure ShellManager where
  processes : List (String × BackgroundProcess) := []
  nextID : Nat := 1
  deriving DecidableEq

/-- Translation of `ShellManager.GetOutput`: look the id up and return
the buffer's current full contents, the done flag and the terminal
error; the table and the record are returned unchanged. -/
def ShellManager.getOutput (sm : ShellManager) (id : String) :
    (Except String (String × Bool × Option String)) × ShellManager :=
  match lookupA sm.processes id with
  | none => (.error ("shell " ++ id ++ " not found"), sm)
  | some bp => (.ok (bp.outputBuf.contents, bp.done, bp.procError), sm)

/-! ## Bash tool (pkg/tools/bash.go)

`Execute`'s interactions with the operating system are a `BashWorld`:
the outcome of `os.Chdir`+`os.Getwd` for a path, the combined output and
error of running a command, and the id the background supervisor would
assign. -/

/-- The operating-system effects `BashTool.Execute` can trigger. -/
structure BashWorld where
  chdirResult : String → Option String
  runResult : String → String × Option String
  bgID : String

/-- Go's `strings.Trim(s, cutset)`: strip leading and trailing characters
belonging to the cutset. -/
def trimCutset (s : String) (cut : List Char) : String :=
  String.mk (((s.toList.dropWhile (· ∈ cut)).reverse.dropWhile (· ∈ cut)).reverse)

/-- Go's `strings.TrimSpace`, over the character list. -/
def goTrimSpace (s : String) : String :=
  String.mk (((s.toList.dropWhile Char.isWhitespace).reverse.dropWhile Char.isWhitespace).reverse)

/-- Go's `strings.HasPrefix`, over the character list. -/
def goStartsWith (s pre : String) : Bool :=
  List.isPrefixOf pre.toList s.toList

/-- The `cd ` heuristic of `Execute`: when the trimmed command starts
with `cd `, attempt to change directory to the unquoted path (the
`cd `-prefix dropped, trimmed again, quotes stripped); `some` is the new
working directory on success. -/
def cdAttempt (w : BashWorld) (cmdStr : String) : Option String :=
  if goStartsWith (goTrimSpace cmdStr) "cd " then
    w.chdirResult
      (trimCutset (goTrimSpace (String.mk ((goTrimSpace cmdStr).toList.drop 3))) ['"', '\''])
  else none

/-- The `run_in_background` flag extraction: a non-bool or absent value
is `false` (Go's two-valued type assertion). -/
def bashBgFlag (args : ArgsMap) : Bool :=
  match lookupA args "run_in_background" with
  | some (.bool b) => b
  | _ => false

/-- The foreground/background run of `Execute` after the cd heuristic
falls through. -/
def bashRun (w : BashWorld) (runInBackground : Bool) (cmdStr : String) : String :=
  if runInBackground then
    "Started background process with ID " ++ w.bgID ++ ". Use BashOutput tool to monitor."
  else
    match w.runResult cmdStr with
    | (out, some e) => "Error: " ++ e ++ "\nOutput:\n" ++ out
    | (out, none) =>
      if out.length > 30000 then out.take 30000 ++ "\n...[Output Truncated]..."
      else out

/-- Translation of `BashTool.Execute`: the only non-nil error is the
missing/non-string `command` argument; every other path returns text
with a nil error. -/
def bashExecute (w : BashWorld) (args : ArgsMap) : Except String String :=
  match lookupA args "command" with
  | some (.str cmdStr) =>
    let runInBackground := bashBgFlag args
    match cdAttempt w cmdStr with
    | some newCwd => .ok ("Changed directory to " ++ newCwd)
    | none => .ok (bashRun w runInBackground cmdStr)
  | _ => .error "command argument is required and must be a string"

/-- A concrete schema exercising the sanitizer: an `$id` key (stripped by
the code, absent from the spec's enumeration), a disallowed keyword
hidden inside an array nested directly inside an array (never reached by
the recursion), and an ordinary key. -/
def exSchemaC3 : Json :=
  .obj (.cons "$id" (.str "x")
       (.cons "a" (.arr (.cons (.arr (.cons (.obj (.cons "$schema" (.str "y") .nil)) .nil)) .nil))
       (.cons "title" (.str "t") .nil)))

/-! ## Interleavings of event-group streams

A stream "containing N interleaved event groups" is a weave of the N
groups' event sequences: any merge that preserves each group's internal
order.  `Weave ls s` holds when `s` is such a merge of the sequences in
`ls`. -/

/-- n-ary interleaving: `s` merges the sequences of `ls`, preserving the
order within each sequence. -/
inductive Weave {α : Type _} : List (List α) → List α → Prop where
  | done {ls : List (List α)} : (∀ l ∈ ls, l = []) → Weave ls []
  | step (pre : List (List α)) (x : α) (l : List α) (post : List (List α)) {s : List α} :
      Weave (pre ++ l :: post) s → Weave (pre ++ (x :: l) :: post) (x :: s)

/-- Decode progress of one Anthropic tool-call group: not yet started,
started with `j` argument fragments consumed, or closed. -/
inductive AProg where
  | pending : AProg
  | working (j : Nat) : AProg
  | finished : AProg
  deriving DecidableEq

/-- The still-unconsumed events of a group in a given phase. -/
def aRemOf (g : AGroup) : AProg → List SseEvent
  | .pending => anthGroupEvents g
  | .working j => (g.frags.drop j).map (anthDeltaEvent g.index) ++ [anthStopEvent g.index]
  | .finished => []

/-- The builder the Anthropic loop holds for a group in a given phase. -/
def aBuilderOf (g : AGroup) : AProg → Option ToolBuilder
  | .pending => none
  | .working j => some ⟨g.id, g.name, String.join (g.frags.take j)⟩
  | .finished => none

/-- Well-formed progress: the fragment cursor stays in range. -/
def aProgOK (g : AGroup) : AProg → Prop
  | .working j => j ≤ g.frags.length
  | _ => True

/-- Success flag and assembled tool calls of an Anthropic run outcome. -/
def anthOutcome (r : Except String AnthState) : Bool × List ToolCall :=
  match r with
  | .ok st => (true, st.toolCalls)
  | .error _ => (false, [])

/-- Decode progress of one OpenAI function-call group: no event seen,
`j ≥ 1` delta fragments consumed, or done. -/
inductive OProg where
  | pending : OProg
  | working (j : Nat) : OProg
  | finished : OProg
  deriving DecidableEq

/-- The still-unconsumed events of a group in a given phase. -/
def oRemOf (g : OGroup) : OProg → List OpenAIStreamEvent
  | .pending => oGroupEvents g
  | .working j => (g.frags.drop j).map (oDeltaEvent g.callID) ++ [oDoneEvent g]
  | .finished => []

/-- The builder the OpenAI loop holds for a group in a given phase (the
`pending` value is never stored: a pending group has no entry). -/
def oBuilt (g : OGroup) : OProg → FuncCallBuilder
  | .pending => ⟨g.callID, "", ""⟩
  | .working j => ⟨g.callID, "", String.join (g.frags.take j)⟩
  | .finished => ⟨g.callID, g.name, oExpectedBuf g⟩

/-- The builders-map entry of a started group. -/
def oEntryOf (gp : OGroup × OProg) : String × FuncCallBuilder :=
  (gp.1.callID, oBuilt gp.1 gp.2)

/-- Well-formed progress: a `working` cursor has seen at least one
fragment and stays in range. -/
def oProgOK (g : OGroup) : OProg → Prop
  | .working j => 1 ≤ j ∧ j ≤ g.frags.length
  | _ => True

/-- Whether an Anthropic group's tool call is still to be emitted. -/
def aliveA (gp : AGroup × AProg) : Bool :=
  match gp.2 with
  | .pending => true
  | .working _ => true
  | .finished => false

/-- Whether an OpenAI group has an entry in the builders map. -/
def startedO (gp : OGroup × OProg) : Bool :=
  match gp.2 with
  | .pending => false
  | .working _ => true
  | .finished => true

/-- Two concrete Anthropic groups and an interleaved stream of their
events in which the first group starts first but stops last. -/
def exAGroups : List AGroup :=
  [⟨0, "ida", "fnA", ["u"]⟩, ⟨1, "idb", "fnB", ["v"]⟩]

/-- The interleaved stream: both starts, both deltas, then the second
group's stop before the first group's stop. -/
def exAnthStream : List SseEvent :=
  [anthStartEvent ⟨0, "ida", "fnA", ["u"]⟩,
   anthStartEvent ⟨1, "idb", "fnB", ["v"]⟩,
   anthDeltaEvent 0 "u",
   anthDeltaEvent 1 "v",
   anthStopEvent 1,
   anthStopEvent 0]

/-- Two concrete OpenAI tool-call groups with distinct call ids, used to
exhibit the unspecified finalization order. -/
def exOGroups : List OGroup :=
  [⟨"a", "fnA", ["x1"], ""⟩, ⟨"b", "fnB", ["x2"], ""⟩]

/-! ## Helper lemmas -/

theorem joinConcat (s : String) (l : List String) :
    String.join (s :: l) = s ++ String.join l := by
  simp [String.join]
  induction l generalizing s with
  | nil => simp
  | cons t ts ih =>
    simp [List.foldl_cons]
    rw [ih (s ++ t), ih t, String.append_assoc]

theorem joinSnoc (l : List String) (s : String) :
    String.join (l ++ [s]) = String.join l ++ s := by
  induction l with
  | nil => simp [String.join]
  | cons t ts ih => rw [List.cons_append, joinConcat, ih, joinConcat, String.append_assoc]

theorem lookupA_insertA_self {κ α : Type _} [DecidableEq κ]
    (m : List (κ × α)) (k : κ) (v : α) : lookupA (insertA m k v) k = some v := by
  induction m with
  | nil => simp [insertA, lookupA]
  | cons hd tl ih =>
    by_cases h : hd.1 = k
    · simp [insertA, h, lookupA]
    · simp [insertA, h, lookupA, ih]

theorem insertA_insertA {κ α : Type _} [DecidableEq κ]
    (m : List (κ × α)) (k : κ) (v w : α) :
    insertA (insertA m k v) k w = insertA m k w := by
  induction m with
  | nil => simp [insertA]
  | cons hd tl ih =>
    by_cases hk : hd.1 = k
    · simp [insertA, hk]
    · simp [insertA, hk, ih]

theorem insertA_self {κ α : Type _} [DecidableEq κ]
    (m : List (κ × α)) (k : κ) (v : α) (h : lookupA m k = some v) :
    insertA m k v = m := by
  induction m with
  | nil => simp [lookupA] at h
  | cons hd tl ih =>
    obtain ⟨k1, v1⟩ := hd
    by_cases hk : k1 = k
    · simp [lookupA, hk] at h
      simp [insertA, hk, ← h]
    · simp [lookupA, hk] at h
      simp [insertA, hk, ih h]

theorem insertA_absent {κ α : Type _} [DecidableEq κ]
    (m : List (κ × α)) (k : κ) (v : α) (h : lookupA m k = none) :
    insertA m k v = m ++ [(k, v)] := by
  induction m with
  | nil => simp [insertA]
  | cons hd tl ih =>
    by_cases hk : hd.1 = k
    · simp [lookupA, hk] at h
    · simp [lookupA, hk] at h
      simp [insertA, hk, ih h]

theorem eraseA_insertA {κ α : Type _} [DecidableEq κ]
    (m : List (κ × α)) (k : κ) (v : α) :
    eraseA (insertA m k v) k = eraseA m k := by
  induction m with
  | nil => simp [insertA, eraseA]
  | cons hd tl ih =>
    by_cases hk : hd.1 = k
    · simp [insertA, hk, eraseA]
    · simp [insertA, hk, eraseA, ih]

theorem lookupA_append_none {κ α : Type _} [DecidableEq κ]
    (m1 m2 : List (κ × α)) (k : κ) (h : lookupA m1 k = none) :
    lookupA (m1 ++ m2) k = lookupA m2 k := by
  induction m1 with
  | nil => simp
  | cons hd tl ih =>
    by_cases hk : hd.1 = k
    · simp [lookupA, hk] at h
    · simp [lookupA, hk] at h ⊢
      exact ih h

theorem lookupA_append_some {κ α : Type _} [DecidableEq κ]
    (m1 m2 : List (κ × α)) (k : κ) (v : α) (h : lookupA m1 k = some v) :
    lookupA (m1 ++ m2) k = some v := by
  induction m1 with
  | nil => simp [lookupA] at h
  | cons hd tl ih =>
    by_cases hk : hd.1 = k
    · simp [lookupA, hk] at h ⊢
      exact h
    · simp [lookupA, hk] at h ⊢
      exact ih h

/-! ## Claim theorems -/

/-- C8: the claim states that the `notifications/initialized` message is
serialized with no `id` field.  The source's `JSONRPCRequest.ID` carries
the tag `json:"id"` without `omitempty`, so `sendNotification` puts
`"id":0` on the wire for every connection, contradicting the source's own
comment that notifications do not have an id: the serialized field list
contains the `id` field. -/
theorem C8_notification_serializes_id_zero :
    (jsonrpcSerializedFields (sendNotificationRequest "notifications/initialized" none)).map
        Prod.fst = ["jsonrpc", "id", "method"]
    ∧ lookupA (jsonrpcSerializedFields
        (sendNotificationRequest "notifications/initialized" none)) "id" = some (.num 0) := by
  constructor <;> rfl

/-- C9: for every background process id present in the supervisor's
table, `GetOutput` returns the output buffer's current full contents with
the done flag and terminal error, leaves the table and the record
unchanged, and two consecutive calls return identical results. -/
theorem C9_getOutput_nondestructive (sm : ShellManager) (id : String)
    (bp : BackgroundProcess) (h : lookupA sm.processes id = some bp) :
    (sm.getOutput id).1 = .ok (bp.outputBuf.contents, bp.done, bp.procError)
    ∧ (sm.getOutput id).2 = sm
    ∧ ((sm.getOutput id).2.getOutput id).1 = (sm.getOutput id).1 := by
  simp [ShellManager.getOutput, h]

/-- Witness for C9 at a concrete one-process table. -/
theorem C9_getOutput_nondestructive_witness :
    ((ShellManager.mk [("1", ⟨"1", ⟨"out", 0⟩, false, none⟩)] 2).getOutput "1").1
      = .ok ("out", false, none) := by
  have h := C9_getOutput_nondestructive
    (ShellManager.mk [("1", ⟨"1", ⟨"out", 0⟩, false, none⟩)] 2) "1"
    ⟨"1", ⟨"out", 0⟩, false, none⟩ (by rfl)
  exact h.1

/-- C10: `BashTool.Execute` returns a non-nil error only for an absent or
non-string `command` argument; a present string command always yields a
nil error; a failed foreground execution embeds the error and the full
combined output in text beginning `Error:`; and the 30000-character
truncation applies only on the successful-execution path. -/
theorem C10_bash_error_handling :
    (∀ w args e, bashExecute w args = .error e →
      e = "command argument is required and must be a string"
      ∧ ∀ s, lookupA args "command" ≠ some (.str s))
    ∧ (∀ w args s, lookupA args "command" = some (.str s) →
        ∃ r, bashExecute w args = .ok r)
    ∧ (∀ w args s out e, lookupA args "command" = some (.str s) →
        bashBgFlag args = false →
        cdAttempt w s = none →
        w.runResult s = (out, some e) →
        bashExecute w args = .ok ("Error: " ++ e ++ "\nOutput:\n" ++ out))
    ∧ (∀ w args s out, lookupA args "command" = some (.str s) →
        bashBgFlag args = false →
        cdAttempt w s = none →
        w.runResult s = (out, none) →
        bashExecute w args = .ok (if out.length > 30000
          then out.take 30000 ++ "\n...[Output Truncated]..." else out)) := by
  refine ⟨?_, ?_, ?_, ?_⟩
  · intro w args e herr
    unfold bashExecute at herr
    constructor
    · cases hl : lookupA args "command" with
      | none => simp [hl] at herr; exact herr.symm
      | some v =>
        cases v <;> simp [hl] at herr <;> first
          | exact herr.symm
          | skip
        case str s =>
          cases hcd : cdAttempt w s <;> simp [hcd] at herr
    · intro s hs
      rw [hs] at herr
      cases hcd : cdAttempt w s <;> simp [hcd] at herr
  · intro w args s hs
    unfold bashExecute
    rw [hs]
    cases hcd : cdAttempt w s <;> simp [hcd]
  · intro w args s out e hs hbg hcd hrun
    simp [bashExecute, hs, hcd, hbg, bashRun, hrun]
  · intro w args s out hs hbg hcd hrun
    simp [bashExecute, hs, hcd, hbg, bashRun, hrun]

/-- Witness for C10 at a concrete failing command. -/
theorem C10_bash_error_handling_witness :
    bashExecute ⟨fun _ => none, fun _ => ("boom-output", some "exit status 1"), "7"⟩
        [("command", .str "false")]
      = .ok ("Error: exit status 1\nOutput:\nboom-output") := by
  exact C10_bash_error_handling.2.2.1
    ⟨fun _ => none, fun _ => ("boom-output", some "exit status 1"), "7"⟩
    [("command", .str "false")] "false" "boom-output" "exit status 1"
    (by rfl) (by rfl) (by decide) (by rfl)

/-- History only grows: anything in the incoming history is in the final
history of `processTurn`. -/
theorem processTurn_hist_mono (reg : Registry) :
    ∀ (b : Nat) (script hist : List Message) (m : Message),
      m ∈ hist → m ∈ (processTurn reg script hist b).hist := by
  intro b
  induction b with
  | zero => intro script hist m hm; simpa [processTurn] using hm
  | succ b ih =>
    intro script hist m hm
    cases script with
    | nil => simpa [processTurn] using hm
    | cons resp rest =>
      by_cases htc : resp.toolCalls = []
      · simp [processTurn, htc]
        exact .inl hm
      · simp [processTurn, htc]
        exact ih rest _ m (by simp [hm])

/-- C4: in the tool-dispatch phase, an unknown tool name produces a
ToolResult whose content is error text, a failing `Execute` produces a
ToolResult whose content is the error text, the error is not propagated
(the only fatal `processTurn` errors are the iteration bound and a
missing response), and the dispatched ToolResult messages are appended to
the history the loop continues with. -/
theorem C4_tool_dispatch_errors :
    (∀ reg tc, registryGet reg tc.name = none →
      dispatchOne reg tc =
        { role := .tool, content := "",
          toolResult := some ⟨tc.id, "", "Error: Tool " ++ tc.name ++ " not found"⟩ })
    ∧ (∀ reg tc t res e, registryGet reg tc.name = some t →
        t.exec tc.args = (res, some e) →
        dispatchOne reg tc =
          { role := .tool, content := "",
            toolResult := some ⟨tc.id, "", "Error executing tool: " ++ e⟩ })
    ∧ (∀ reg b script hist e, (processTurn reg script hist b).result = .error e →
        e = "max turns reached" ∨ e = "generation produced no response")
    ∧ (∀ reg b script hist resp rest tc, script = resp :: rest → tc ∈ resp.toolCalls →
        dispatchOne reg tc ∈ (processTurn reg script hist (b + 1)).hist) := by
  refine ⟨?_, ?_, ?_, ?_⟩
  · intro reg tc h
    simp [dispatchOne, h]
  · intro reg tc t res e ht he
    simp [dispatchOne, ht, he]
  · intro reg b
    induction b with
    | zero =>
      intro script hist e he
      simp [processTurn] at he
      exact .inl he.symm
    | succ b ih =>
      intro script hist e he
      cases script with
      | nil =>
        simp [processTurn] at he
        exact .inr he.symm
      | cons resp rest =>
        by_cases htc : resp.toolCalls = []
        · simp [processTurn, htc] at he
        · simp [processTurn, htc] at he
          exact ih rest _ e he
  · intro reg b script hist resp rest tc hs htc
    subst hs
    have hne : resp.toolCalls ≠ [] := by
      intro h0
      rw [h0] at htc
      exact (List.not_mem_nil _) htc
    simp [processTurn, hne]
    exact processTurn_hist_mono reg b rest _ _
      (by simp [List.mem_map]; exact .inr (.inr ⟨tc, htc, rfl⟩))

/-- Witness for C4 at a concrete unknown tool call. -/
theorem C4_tool_dispatch_errors_witness :
    dispatchOne [] ⟨"id1", "NoSuchTool", []⟩ =
      { role := .tool, content := "",
        toolResult := some ⟨"id1", "", "Error: Tool NoSuchTool not found"⟩ } :=
  C4_tool_dispatch_errors.1 [] ⟨"id1", "NoSuchTool", []⟩ (by rfl)

/-- C5: a scripted adapter returning tool calls for the first k-1 rounds
and then a plain assistant message makes `processTurn` stop after exactly
k model calls and k-1 tool rounds with success, the plain text being the
turn result; a script that always returns tool calls makes it fail with
the fatal iteration-bound error after exactly `bound` model calls. -/
theorem C5_turn_loop_termination :
    (∀ reg (pre : List Message) (m : Message) (rest hist : List Message) (bound : Nat),
      (∀ r ∈ pre, r.toolCalls ≠ []) → m.toolCalls = [] → m.role = .assistant →
      pre.length < bound →
      (processTurn reg (pre ++ m :: rest) hist bound).result = .ok ()
      ∧ (processTurn reg (pre ++ m :: rest) hist bound).modelCalls = pre.length + 1
      ∧ (processTurn reg (pre ++ m :: rest) hist bound).toolRounds = pre.length
      ∧ (processTurn reg (pre ++ m :: rest) hist bound).hist.getLast? = some m
      ∧ runTaskResult (processTurn reg (pre ++ m :: rest) hist bound) = .ok m.content)
    ∧ (∀ reg (script hist : List Message) (bound : Nat),
        (∀ r ∈ script, r.toolCalls ≠ []) → bound ≤ script.length →
        (processTurn reg script hist bound).result = .error "max turns reached"
        ∧ (processTurn reg script hist bound).modelCalls = bound
        ∧ (processTurn reg script hist bound).toolRounds = bound) := by
  constructor
  · intro reg pre
    induction pre with
    | nil =>
      intro m rest hist bound hpre hm hrole hlen
      obtain ⟨b, rfl⟩ : ∃ b, bound = b + 1 := ⟨bound - 1, by omega⟩
      simp [processTurn, hm, runTaskResult, hrole]
    | cons p ps ih =>
      intro m rest hist bound hpre hm hrole hlen
      obtain ⟨b, rfl⟩ : ∃ b, bound = b + 1 := ⟨bound - 1, by omega⟩
      have hp : p.toolCalls ≠ [] := hpre p (by simp)
      have ihb := ih m rest
        ((hist ++ [p]) ++ p.toolCalls.map (dispatchOne reg)) b
        (fun r hr => hpre r (by simp [hr])) hm hrole (by simp at hlen; omega)
      simp only [List.cons_append, processTurn, hp, if_neg hp]
      refine ⟨ihb.1, ?_, ?_, ihb.2.2.2.1, ?_⟩
      · simpa using ihb.2.1
      · simpa using ihb.2.2.1
      · have := ihb.2.2.2.2
        simpa [runTaskResult, ihb.1] using this
  · intro reg script hist bound
    induction bound generalizing script hist with
    | zero => intro hall hlen; simp [processTurn]
    | succ b ih =>
      intro hall hlen
      cases script with
      | nil => simp at hlen
      | cons resp rest =>
        have hne : resp.toolCalls ≠ [] := hall resp (by simp)
        have ihb := ih rest ((hist ++ [resp]) ++ resp.toolCalls.map (dispatchOne reg))
          (fun r hr => hall r (by simp [hr])) (by simp at hlen; omega)
        simp only [processTurn, if_neg hne]
        exact ⟨ihb.1, by simpa using ihb.2.1, by simpa using ihb.2.2⟩

/-- Witness for C5: one round of tool calls then a plain message, bound 50. -/
theorem C5_turn_loop_termination_witness :
    (processTurn []
        [{ role := .assistant, content := "", toolCalls := [⟨"i", "T", []⟩] },
         { role := .assistant, content := "done" }]
        [] 50).modelCalls = 2 :=
  (C5_turn_loop_termination.1 []
    [{ role := .assistant, content := "", toolCalls := [⟨"i", "T", []⟩] }]
    { role := .assistant, content := "done" } [] [] 50
    (by intro r hr; simp at hr; subst hr; simp)
    (by rfl) (by rfl) (by decide)).2.1

/-- One Anthropic step preserves the fragment-concatenation invariant. -/
theorem anthStep_text_inv (parse : String → Option ArgsMap) (st : AnthState)
    (ev : SseEvent) (st' : AnthState) (h : anthropicStep parse st ev = .ok st')
    (hinv : String.join st.emitted = st.content) :
    String.join st'.emitted = st'.content := by
  unfold anthropicStep at h
  repeat' split at h
  all_goals cases h
  all_goals try exact hinv
  all_goals simp [joinSnoc, hinv]

/-- The Anthropic loop preserves the fragment-concatenation invariant. -/
theorem anthRun_text_inv (parse : String → Option ArgsMap) :
    ∀ (evs : List SseEvent) (st st' : AnthState),
      anthropicRun parse evs st = .ok st' →
      String.join st.emitted = st.content → String.join st'.emitted = st'.content := by
  intro evs
  induction evs with
  | nil =>
    intro st st' h hinv
    unfold anthropicRun at h
    cases h
    exact hinv
  | cons ev rest ih =>
    intro st st' h hinv
    unfold anthropicRun at h
    cases hst : anthropicStep parse st ev with
    | error e => rw [hst] at h; cases h
    | ok st1 =>
      rw [hst] at h
      exact ih st1 st' h (anthStep_text_inv parse st ev st1 hst hinv)

/-- One OpenAI step preserves the fragment-concatenation invariant. -/
theorem oaStep_text_inv (st : OAState) (ev : OpenAIStreamEvent)
    (hinv : String.join st.emitted = st.content) :
    String.join (openAIStep st ev).emitted = (openAIStep st ev).content := by
  unfold openAIStep
  repeat' split
  all_goals simp [joinSnoc, hinv]

/-- The OpenAI loop preserves the fragment-concatenation invariant. -/
theorem oaRun_text_inv :
    ∀ (evs : List OpenAIStreamEvent) (st : OAState),
      String.join st.emitted = st.content →
      String.join (openAIRun evs st).emitted = (openAIRun evs st).content := by
  intro evs
  induction evs with
  | nil => intro st hinv; simpa [openAIRun] using hinv
  | cons ev rest ih =>
    intro st hinv
    unfold openAIRun
    exact ih (openAIStep st ev) (oaStep_text_inv st ev hinv)

/-- One Gemini part preserves the fragment-concatenation invariant. -/
theorem gemStep_text_inv (st : GemState) (p : GeminiPart)
    (hinv : String.join st.emitted = st.content) :
    String.join (geminiPartStep st p).emitted = (geminiPartStep st p).content := by
  unfold geminiPartStep
  repeat' split
  all_goals simp [joinSnoc, hinv]

/-- The Gemini part loop preserves the fragment-concatenation invariant. -/
theorem gemRunParts_text_inv :
    ∀ (parts : List GeminiPart) (st : GemState),
      String.join st.emitted = st.content →
      String.join (geminiRunParts parts st).emitted = (geminiRunParts parts st).content := by
  intro parts
  induction parts with
  | nil => intro st hinv; simpa [geminiRunParts] using hinv
  | cons p rest ih =>
    intro st hinv
    unfold geminiRunParts
    exact ih (geminiPartStep st p) (gemStep_text_inv st p hinv)

/-- The per-chunk candidate loop preserves the invariant. -/
theorem gemCands_text_inv :
    ∀ (cands : List GeminiCandidate) (st : GemState),
      String.join st.emitted = st.content →
      String.join (cands.foldl (fun st cand => geminiRunParts cand.parts st) st).emitted
        = (cands.foldl (fun st cand => geminiRunParts cand.parts st) st).content := by
  intro cands
  induction cands with
  | nil => intro st hinv; simpa using hinv
  | cons c cs ih =>
    intro st hinv
    simp only [List.foldl_cons]
    exact ih _ (gemRunParts_text_inv c.parts st hinv)

/-- The Gemini chunk loop preserves the invariant. -/
theorem gemChunks_text_inv :
    ∀ (chunks : List GeminiChunk) (st : GemState),
      String.join st.emitted = st.content →
      String.join (geminiRunChunks chunks st).emitted = (geminiRunChunks chunks st).content := by
  intro chunks
  induction chunks with
  | nil => intro st hinv; simpa [geminiRunChunks] using hinv
  | cons c cs ih =>
    intro st hinv
    unfold geminiRunChunks at *
    simp only [List.foldl_cons]
    exact ih _ (gemCands_text_inv c.candidates st hinv)

/-- C1: for each provider adapter, the concatenation of the text
fragments forwarded to the output channel, in emission order, equals the
Content of the final returned Message (from the initial empty state; for
Anthropic, whenever the stream loop returns a message at all). -/
theorem C1_stream_text_concat :
    (∀ (parse : String → Option ArgsMap) (evs : List SseEvent) (st' : AnthState),
      anthropicRun parse evs {} = .ok st' → String.join st'.emitted = st'.content)
    ∧ (∀ evs : List OpenAIStreamEvent,
        String.join (openAIRun evs {}).emitted = (openAIRun evs {}).content)
    ∧ (∀ chunks : List GeminiChunk,
        String.join (geminiRunChunks chunks {}).emitted = (geminiRunChunks chunks {}).content) := by
  refine ⟨?_, ?_, ?_⟩
  · intro parse evs st' h
    exact anthRun_text_inv parse evs {} st' h (by rfl)
  · intro evs
    exact oaRun_text_inv evs {} (by rfl)
  · intro chunks
    exact gemChunks_text_inv chunks {} (by rfl)

/-- Witness for C1 on a concrete two-fragment Anthropic stream. -/
theorem C1_stream_text_concat_witness :
    String.join (AnthState.mk "Hello world" ["Hello ", "world"] [] []).emitted
      = (AnthState.mk "Hello world" ["Hello ", "world"] [] []).content :=
  C1_stream_text_concat.1 (fun _ => none)
    [{ type := "content_block_delta", delta := some { type := "text_delta", text := "Hello " } },
     { type := "content_block_delta", delta := some { type := "text_delta", text := "world" } }]
    (AnthState.mk "Hello world" ["Hello ", "world"] [] []) (by rfl)

/-- C7: during streaming decode, a tool-call argument buffer that fails
to parse at the tool-call-done point yields a ToolCall with an empty
argument set, the stream is not aborted, and no error is returned for
that reason — for both adapters that assemble arguments from the stream
(Anthropic `content_block_stop` and the OpenAI finalization loop). -/
theorem C7_malformed_args_soft_fail :
    (∀ (parse : String → Option ArgsMap) (st : AnthState) (ev : SseEvent)
        (tb : ToolBuilder) (rest : List SseEvent),
      ev.type = "content_block_stop" →
      lookupA st.builders ev.index = some tb →
      parse tb.jsonBuffer = none →
      anthropicRun parse (ev :: rest) st
        = anthropicRun parse rest
            { st with toolCalls := st.toolCalls ++ [⟨tb.id, tb.name, []⟩],
                      builders := eraseA st.builders ev.index })
    ∧ (∀ (parse : String → Option ArgsMap) (st : OAState) (iterOrder : List String)
        (k : String) (b : FuncCallBuilder),
        lookupA st.builders k = some b →
        parse b.argsBuffer = none →
        k ∈ iterOrder →
        (⟨b.callID, b.name, []⟩ : ToolCall) ∈ openAIFinalize parse st iterOrder) := by
  constructor
  · intro parse st ev tb rest hty hl hp
    have : anthropicStep parse st ev
        = .ok { st with toolCalls := st.toolCalls ++ [⟨tb.id, tb.name, []⟩],
                        builders := eraseA st.builders ev.index } := by
      unfold anthropicStep
      rw [hty]
      simp [hl, hp]
    unfold anthropicRun
    rw [this]
    cases rest <;> rfl
  · intro parse st iterOrder k b hl hp hk
    unfold openAIFinalize
    refine List.mem_filterMap.2 ⟨k, hk, ?_⟩
    simp [hl, hp]

/-- Witness for C7 at a concrete unparsable buffer. -/
theorem C7_malformed_args_soft_fail_witness :
    (⟨"call_9", "fnX", []⟩ : ToolCall) ∈
      openAIFinalize (fun _ => none)
        (OAState.mk "" [] [("c9", ⟨"call_9", "fnX", "not-json"⟩)]) ["c9"] :=
  C7_malformed_args_soft_fail.2 (fun _ => none)
    (OAState.mk "" [] [("c9", ⟨"call_9", "fnX", "not-json"⟩)]) ["c9"] "c9"
    ⟨"call_9", "fnX", "not-json"⟩ (by rfl) (by rfl) (by decide)

mutual

/-- After sanitization no unsupported key survives in an object, at any
depth the recursion reaches (all of them, for `goodFields` schemas). -/
theorem purgeFields : ∀ (f : JsonObj), goodFields f = true →
    ∀ u ∈ unsupportedFields, objHasKey (sanitizeFields f) u = false
  | .nil, _, u, _ => by simp [sanitizeFields, objHasKey]
  | .cons k v tl, hg, u, hu => by
    simp only [goodFields, Bool.and_eq_true] at hg
    obtain ⟨hgv, hgt⟩ := hg
    by_cases hk : k ∈ unsupportedFields
    · simp only [sanitizeFields, if_pos hk]
      exact purgeFields tl hgt u hu
    · have hne : (k == u) = false := beq_eq_false_iff_ne.mpr (fun h => hk (h ▸ hu))
      simp only [sanitizeFields, if_neg hk, objHasKey, hne, Bool.false_or,
        Bool.or_eq_false_iff]
      exact ⟨purgeFieldVal v hgv u hu, purgeFields tl hgt u hu⟩

/-- No unsupported key survives below a sanitized field value. -/
theorem purgeFieldVal : ∀ (v : Json), goodVal v = true →
    ∀ u ∈ unsupportedFields, jsonHasKey (sanitizeFieldVal v) u = false
  | .obj f, hg, u, hu => by
    simp only [goodVal] at hg
    simpa only [sanitizeFieldVal, jsonHasKey] using purgeFields f hg u hu
  | .arr xs, hg, u, hu => by
    simp only [goodVal] at hg
    simpa only [sanitizeFieldVal, jsonHasKey] using purgeItems xs hg u hu
  | .null, _, _, _ => by simp [sanitizeFieldVal, jsonHasKey]
  | .bool b, _, _, _ => by simp [sanitizeFieldVal, jsonHasKey]
  | .num n, _, _, _ => by simp [sanitizeFieldVal, jsonHasKey]
  | .str t, _, _, _ => by simp [sanitizeFieldVal, jsonHasKey]

/-- No unsupported key survives below sanitized array items. -/
theorem purgeItems : ∀ (xs : JsonArr), goodItems xs = true →
    ∀ u ∈ unsupportedFields, arrHasKey (sanitizeArrItems xs) u = false
  | .nil, _, u, _ => by simp [sanitizeArrItems, arrHasKey]
  | .cons hd tl, hg, u, hu => by
    simp only [goodItems, Bool.and_eq_true] at hg
    obtain ⟨hghd, hgtl⟩ := hg
    simp only [sanitizeArrItems, arrHasKey, Bool.or_eq_false_iff]
    exact ⟨purgeItem hd hghd u hu, purgeItems tl hgtl u hu⟩

/-- No unsupported key survives below one sanitized array item. -/
theorem purgeItem : ∀ (hd : Json), goodItem hd = true →
    ∀ u ∈ unsupportedFields, jsonHasKey (sanitizeItem hd) u = false
  | .obj f, hg, u, hu => by
    simp only [goodItem] at hg
    simpa only [sanitizeItem, jsonHasKey] using purgeFields f hg u hu
  | .arr xs, hg, _, _ => by simp [goodItem] at hg
  | .null, _, _, _ => by simp [sanitizeItem, jsonHasKey]
  | .bool b, _, _, _ => by simp [sanitizeItem, jsonHasKey]
  | .num n, _, _, _ => by simp [sanitizeItem, jsonHasKey]
  | .str t, _, _, _ => by simp [sanitizeItem, jsonHasKey]

end

/-- Sanitization preserves exactly the non-unsupported top-level keys. -/
theorem sanitizeFields_memKey : ∀ (fields : JsonObj) (k : String),
    k ∉ unsupportedFields → objMemKey (sanitizeFields fields) k = objMemKey fields k
  | .nil, _, _ => rfl
  | .cons key v tl, k, hk => by
    by_cases hu : key ∈ unsupportedFields
    · have hne : (key == k) = false := beq_eq_false_iff_ne.mpr (fun h => hk (h ▸ hu))
      simp only [sanitizeFields, if_pos hu, objMemKey, hne, Bool.false_or]
      exact sanitizeFields_memKey tl k hk
    · simp only [sanitizeFields, if_neg hu, objMemKey]
      rw [sanitizeFields_memKey tl k hk]

/-- C3 counterexample: the claim states that the sanitized result
contains none of the spec-enumerated keywords at any depth and preserves
every keyword outside that list.  On `exSchemaC3` the code leaves the
spec-listed `$schema` in place (it sits inside an array nested directly
in an array, which the recursion never enters) and strips `$id`, a
keyword not in the spec's enumeration. -/
theorem C3_sanitizer_counterexample :
    ("$schema" ∈ specDisallowedKeywords
      ∧ jsonHasKey (sanitizeSchemaForGemini exSchemaC3) "$schema" = true)
    ∧ ("$id" ∉ specDisallowedKeywords
      ∧ jsonHasKey exSchemaC3 "$id" = true
      ∧ jsonHasKey (sanitizeSchemaForGemini exSchemaC3) "$id" = false) := by
  decide

/-- C3 amended: the sanitizer removes every keyword of the code's
`unsupportedFields` list (the spec's enumeration plus `$id`) at every
nesting depth its recursion reaches — all depths, for schemas whose
arrays contain no directly nested arrays — and at each surviving object
keeps exactly the keys outside that list (stated at the top level). -/
theorem C3_sanitizer_amended :
    (∀ (fields : JsonObj), goodFields fields = true →
      ∀ u ∈ unsupportedFields, jsonHasKey (sanitizeSchemaForGemini (.obj fields)) u = false)
    ∧ (∀ (fields : JsonObj) (k : String), k ∉ unsupportedFields →
        objMemKey (sanitizeFields fields) k = objMemKey fields k) := by
  constructor
  · intro fields hg u hu
    simpa only [sanitizeSchemaForGemini, jsonHasKey] using purgeFields fields hg u hu
  · intro fields k hk
    exact sanitizeFields_memKey fields k hk

/-- Witness for the amended C3 at a concrete schema. -/
theorem C3_sanitizer_amended_witness :
    jsonHasKey (sanitizeSchemaForGemini
      (.obj (.cons "type" (.str "object") (.cons "$ref" (.str "x") .nil)))) "$ref" = false :=
  C3_sanitizer_amended.1 (.cons "type" (.str "object") (.cons "$ref" (.str "x") .nil))
    (by decide) "$ref" (by decide)

/-- One decoded event advances the Anthropic loop by one step. -/
theorem anthropicRun_cons_ok (parse : String → Option ArgsMap) (ev : SseEvent)
    (rest : List SseEvent) (st st1 : AnthState)
    (h : anthropicStep parse st ev = .ok st1) :
    anthropicRun parse (ev :: rest) st = anthropicRun parse rest st1 := by
  unfold anthropicRun
  rw [h]
  cases rest <;> rfl

/-- Splitting an Anthropic run over an append of event lists, when the
first part succeeds. -/
theorem anthropicRun_append_ok (parse : String → Option ArgsMap) :
    ∀ (l1 l2 : List SseEvent) (st st1 : AnthState),
      anthropicRun parse l1 st = .ok st1 →
      anthropicRun parse (l1 ++ l2) st = anthropicRun parse l2 st1 := by
  intro l1
  induction l1 with
  | nil =>
    intro l2 st st1 h
    unfold anthropicRun at h
    cases h
    rfl
  | cons ev rest ih =>
    intro l2 st st1 h
    unfold anthropicRun at h
    cases hst : anthropicStep parse st ev with
    | error e => rw [hst] at h; cases h
    | ok stm =>
      rw [hst] at h
      rw [List.cons_append, anthropicRun_cons_ok parse ev _ st stm hst]
      exact ih l2 stm st1 h

/-- Stepping a `content_block_start` event (unconditional). -/
theorem anthStep_start (parse : String → Option ArgsMap) (st : AnthState) (g : AGroup) :
    anthropicStep parse st (anthStartEvent g)
      = .ok { st with builders := insertA st.builders g.index ⟨g.id, g.name, ""⟩ } := by
  unfold anthStartEvent anthropicStep
  simp

/-- Stepping an `input_json_delta` event with an open builder. -/
theorem anthStep_delta (parse : String → Option ArgsMap) (st : AnthState) (idx : Int)
    (f : String) (tb : ToolBuilder) (h : lookupA st.builders idx = some tb) :
    anthropicStep parse st (anthDeltaEvent idx f)
      = .ok { st with
              builders := insertA st.builders idx
                { tb with jsonBuffer := tb.jsonBuffer ++ f } } := by
  unfold anthDeltaEvent anthropicStep
  simp [h]

/-- Stepping a `content_block_stop` event with an open builder. -/
theorem anthStep_stop (parse : String → Option ArgsMap) (st : AnthState) (idx : Int)
    (tb : ToolBuilder) (h : lookupA st.builders idx = some tb) :
    anthropicStep parse st (anthStopEvent idx)
      = .ok { st with
              toolCalls := st.toolCalls ++ [⟨tb.id, tb.name, (parse tb.jsonBuffer).getD []⟩],
              builders := eraseA st.builders idx } := by
  unfold anthStopEvent anthropicStep
  simp [h]

/-- Folding the argument-delta events of one Anthropic group. -/
theorem anthDeltas_run (parse : String → Option ArgsMap) (idx : Int) :
    ∀ (frags : List String) (st : AnthState) (tb : ToolBuilder),
      lookupA st.builders idx = some tb →
      anthropicRun parse (frags.map (anthDeltaEvent idx)) st
        = .ok { st with
                builders := insertA st.builders idx
                  { tb with jsonBuffer := tb.jsonBuffer ++ String.join frags } } := by
  intro frags
  induction frags with
  | nil =>
    intro st tb h
    simp [anthropicRun, String.join, insertA_self st.builders idx tb h]
  | cons f fs ih =>
    intro st tb h
    rw [List.map_cons, anthropicRun_cons_ok parse _ _ st _ (anthStep_delta parse st idx f tb h)]
    rw [ih _ { tb with jsonBuffer := tb.jsonBuffer ++ f } (lookupA_insertA_self st.builders idx _)]
    dsimp only
    rw [insertA_insertA st.builders idx]
    simp [joinConcat, String.append_assoc]

/-- Running the events of one Anthropic tool-call group assembles exactly
that group's tool call and closes its builder. -/
theorem anthGroup_run (parse : String → Option ArgsMap) (g : AGroup) (st : AnthState) :
    anthropicRun parse (anthGroupEvents g) st
      = .ok { st with toolCalls := st.toolCalls ++ [anthExpected parse g],
                      builders := eraseA st.builders g.index } := by
  unfold anthGroupEvents
  rw [anthropicRun_append_ok parse _ _ _ _ (by
    rw [anthropicRun_cons_ok parse _ _ st _ (anthStep_start parse st g)]
    exact anthDeltas_run parse g.index g.frags _ ⟨g.id, g.name, ""⟩ (lookupA_insertA_self _ _ _))]
  dsimp only
  rw [insertA_insertA st.builders g.index]
  rw [anthropicRun_cons_ok parse _ _ _ _ (anthStep_stop parse _ g.index
    ⟨g.id, g.name, "" ++ String.join g.frags⟩ (lookupA_insertA_self _ _ _))]
  simp [anthropicRun, eraseA_insertA, anthExpected]

/-- Running a list of contiguous Anthropic groups from a state with no
open builders assembles their tool calls in group order. -/
theorem anthGroups_run (parse : String → Option ArgsMap) :
    ∀ (groups : List AGroup) (st : AnthState), st.builders = [] →
      anthropicRun parse ((groups.map anthGroupEvents).flatten) st
        = .ok { st with toolCalls := st.toolCalls ++ groups.map (anthExpected parse),
                        builders := [] } := by
  intro groups
  induction groups with
  | nil =>
    intro st hb
    obtain ⟨c, em, tc, bl⟩ := st
    simp at hb
    subst hb
    simp [anthropicRun]
  | cons g gs ih =>
    intro g_st hb
    simp only [List.map_cons, List.flatten_cons]
    rw [anthropicRun_append_ok parse _ _ _ _ (anthGroup_run parse g g_st)]
    rw [ih _ (by simp [hb, eraseA])]
    simp [hb, eraseA]

/-- Splitting an OpenAI run over an append of event lists. -/
theorem openAIRun_append :
    ∀ (l1 l2 : List OpenAIStreamEvent) (st : OAState),
      openAIRun (l1 ++ l2) st = openAIRun l2 (openAIRun l1 st) := by
  intro l1
  induction l1 with
  | nil => intro l2 st; rfl
  | cons ev rest ih => intro l2 st; simp [openAIRun, ih]

/-- Inserting at a key that sits (only) at the end of the list. -/
theorem insertA_append_last {κ α : Type _} [DecidableEq κ]
    (m : List (κ × α)) (k : κ) (h : lookupA m k = none) (v w : α) :
    insertA (m ++ [(k, v)]) k w = m ++ [(k, w)] := by
  induction m with
  | nil => simp [insertA]
  | cons hd tl ih =>
    by_cases hk : hd.1 = k
    · simp [lookupA, hk] at h
    · simp [lookupA, hk] at h
      simp [insertA, hk, ih h]

/-- Looking up the key appended at the end of the list. -/
theorem lookupA_append_last {κ α : Type _} [DecidableEq κ]
    (m : List (κ × α)) (k : κ) (h : lookupA m k = none) (v : α) :
    lookupA (m ++ [(k, v)]) k = some v := by
  rw [lookupA_append_none m _ k h]
  simp [lookupA]

/-- Stepping an argument-delta event with an existing builder. -/
theorem oStep_delta_found (st : OAState) (cid : String) (f : String) (b : FuncCallBuilder)
    (hcid : ¬ cid = "") (h : lookupA st.builders cid = some b) :
    openAIStep st (oDeltaEvent cid f)
      = { st with
          builders := insertA st.builders cid { b with argsBuffer := b.argsBuffer ++ f } } := by
  unfold oDeltaEvent openAIStep
  simp [hcid, h]

/-- Stepping an argument-delta event with no builder yet. -/
theorem oStep_delta_new (st : OAState) (cid : String) (f : String)
    (hcid : ¬ cid = "") (h : lookupA st.builders cid = none) :
    openAIStep st (oDeltaEvent cid f)
      = { st with builders := insertA st.builders cid ⟨cid, "", f⟩ } := by
  unfold oDeltaEvent openAIStep
  simp [hcid, h]

/-- Stepping a done event with an existing builder. -/
theorem oStep_done_found (st : OAState) (g : OGroup) (b : FuncCallBuilder)
    (hcid : ¬ g.callID = "") (h : lookupA st.builders g.callID = some b) :
    openAIStep st (oDoneEvent g)
      = { st with
          builders := insertA st.builders g.callID
            { b with name := g.name,
                     argsBuffer := if g.doneArgs ≠ "" then g.doneArgs else b.argsBuffer } } := by
  unfold oDoneEvent openAIStep
  simp [hcid, h]

/-- Stepping a done event with no builder yet. -/
theorem oStep_done_new (st : OAState) (g : OGroup)
    (hcid : ¬ g.callID = "") (h : lookupA st.builders g.callID = none) :
    openAIStep st (oDoneEvent g)
      = { st with builders := insertA st.builders g.callID ⟨g.callID, g.name, g.doneArgs⟩ } := by
  unfold oDoneEvent openAIStep
  simp [hcid, h]

/-- Folding the argument-delta events of one OpenAI group, once its
builder exists. -/
theorem oDeltas_run (cid : String) (hcid : ¬ cid = "") :
    ∀ (frags : List String) (st : OAState) (b : FuncCallBuilder),
      lookupA st.builders cid = some b →
      openAIRun (frags.map (oDeltaEvent cid)) st
        = { st with
            builders := insertA st.builders cid
              { b with argsBuffer := b.argsBuffer ++ String.join frags } } := by
  intro frags
  induction frags with
  | nil =>
    intro st b h
    simp [openAIRun, String.join, insertA_self st.builders cid b h]
  | cons f fs ih =>
    intro st b h
    rw [List.map_cons]
    simp only [openAIRun]
    rw [oStep_delta_found st cid f b hcid h]
    rw [ih _ { b with argsBuffer := b.argsBuffer ++ f } (lookupA_insertA_self st.builders cid _)]
    dsimp only
    rw [insertA_insertA st.builders cid]
    simp [joinConcat, String.append_assoc]

/-- Running the events of one OpenAI function-call group appends exactly
that group's builder, holding the expected argument buffer. -/
theorem oGroup_run (g : OGroup) (hcid : ¬ g.callID = "") (st : OAState)
    (habs : lookupA st.builders g.callID = none) :
    openAIRun (oGroupEvents g) st
      = { st with
          builders := st.builders ++ [(g.callID, ⟨g.callID, g.name, oExpectedBuf g⟩)] } := by
  cases hf : g.frags with
  | nil =>
    have hevents : oGroupEvents g = [oDoneEvent g] := by
      unfold oGroupEvents
      rw [hf]
      rfl
    have hbuf : oExpectedBuf g = g.doneArgs := by
      unfold oExpectedBuf
      rw [hf]
      split <;> simp_all [String.join]
    rw [hevents]
    simp only [openAIRun]
    rw [oStep_done_new st g hcid habs, insertA_absent st.builders g.callID _ habs, hbuf]
  | cons f fs =>
    have hevents : oGroupEvents g
        = oDeltaEvent g.callID f :: (fs.map (oDeltaEvent g.callID) ++ [oDoneEvent g]) := by
      unfold oGroupEvents
      rw [hf]
      rfl
    rw [hevents]
    simp only [openAIRun]
    rw [oStep_delta_new st g.callID f hcid habs, insertA_absent st.builders g.callID _ habs]
    rw [openAIRun_append]
    rw [oDeltas_run g.callID hcid fs _ ⟨g.callID, "", f⟩ (lookupA_append_last _ _ habs _)]
    dsimp only
    rw [insertA_append_last st.builders g.callID habs]
    have hbuf : oExpectedBuf g = (if g.doneArgs ≠ "" then g.doneArgs else f ++ String.join fs) := by
      unfold oExpectedBuf
      rw [hf, joinConcat]
    simp only [openAIRun]
    rw [oStep_done_found _ g ⟨g.callID, "", f ++ String.join fs⟩ hcid
      (lookupA_append_last st.builders g.callID habs _)]
    rw [insertA_append_last st.builders g.callID habs]
    rw [hbuf]

/-- Running a list of contiguous OpenAI groups with distinct, non-empty
call ids appends their builders in group order. -/
theorem oGroups_run :
    ∀ (groups : List OGroup) (st : OAState),
      (∀ g ∈ groups, ¬ g.callID = "") →
      (∀ g ∈ groups, lookupA st.builders g.callID = none) →
      (groups.map (fun g => g.callID)).Nodup →
      openAIRun ((groups.map oGroupEvents).flatten) st
        = { st with builders := st.builders ++
            groups.map (fun g => (g.callID, ⟨g.callID, g.name, oExpectedBuf g⟩)) } := by
  intro groups
  induction groups with
  | nil => intro st _ _ _; simp [openAIRun]
  | cons g gs ih =>
    intro st hcid habs hnd
    simp only [List.map_cons, List.flatten_cons]
    rw [openAIRun_append]
    rw [oGroup_run g (hcid g (by simp)) st (habs g (by simp))]
    have hnd' : (gs.map (fun g => g.callID)).Nodup := by
      simp only [List.map_cons, List.nodup_cons] at hnd
      exact hnd.2
    have hgnotin : g.callID ∉ gs.map (fun g => g.callID) := by
      simp only [List.map_cons, List.nodup_cons] at hnd
      exact hnd.1
    rw [ih _ (fun g' hg' => hcid g' (by simp [hg']))
        (fun g' hg' => by
          rw [lookupA_append_none _ _ _ (habs g' (by simp [hg']))]
          have hne' : ¬ g.callID = g'.callID := by
            intro hEq
            exact hgnotin (by
              rw [hEq]
              exact List.mem_map_of_mem (fun g => g.callID) hg')
          simp [lookupA, hne'])
        hnd']
    simp

/-- Iterating the finalization lookups over the builder keys in insertion
order recovers the groups' expected tool calls. -/
theorem oFinalize_entries (parse : String → Option ArgsMap) :
    ∀ (groups : List OGroup) (pre : List (String × FuncCallBuilder)),
      (groups.map (fun g => g.callID)).Nodup →
      (∀ g ∈ groups, lookupA pre g.callID = none) →
      (groups.map (fun g => g.callID)).filterMap (fun k =>
          (lookupA (pre ++ groups.map
              (fun g => (g.callID, FuncCallBuilder.mk g.callID g.name (oExpectedBuf g)))) k).map
            (fun b => ToolCall.mk b.callID b.name ((parse b.argsBuffer).getD [])))
        = groups.map (oExpected parse) := by
  intro groups
  induction groups with
  | nil => intro pre _ _; simp
  | cons g gs ih =>
    intro pre hnd habs
    have hgnotin : g.callID ∉ gs.map (fun g => g.callID) := by
      simp only [List.map_cons, List.nodup_cons] at hnd
      exact hnd.1
    have hnd' : (gs.map (fun g => g.callID)).Nodup := by
      simp only [List.map_cons, List.nodup_cons] at hnd
      exact hnd.2
    have habs' : ∀ g' ∈ gs,
        lookupA (pre ++ [(g.callID, FuncCallBuilder.mk g.callID g.name (oExpectedBuf g))])
          g'.callID = none := by
      intro g' hg'
      rw [lookupA_append_none _ _ _ (habs g' (by simp [hg']))]
      have hne : ¬ g.callID = g'.callID := by
        intro hEq
        exact hgnotin (by
          rw [hEq]
          exact List.mem_map_of_mem (fun g => g.callID) hg')
      simp [lookupA, hne]
    have hstep := ih (pre ++ [(g.callID, FuncCallBuilder.mk g.callID g.name (oExpectedBuf g))])
      hnd' habs'
    simp only [List.map_cons, List.filterMap_cons]
    rw [show pre ++ (g.callID, FuncCallBuilder.mk g.callID g.name (oExpectedBuf g)) ::
          gs.map (fun g => (g.callID, FuncCallBuilder.mk g.callID g.name (oExpectedBuf g)))
        = (pre ++ [(g.callID, FuncCallBuilder.mk g.callID g.name (oExpectedBuf g))]) ++
          gs.map (fun g => (g.callID, FuncCallBuilder.mk g.callID g.name (oExpectedBuf g)))
      from by simp]
    rw [lookupA_append_some _ _ _ _ (lookupA_append_last pre g.callID (habs g (by simp)) _)]
    rw [hstep]
    simp [oExpected]

/-- The tool calls appended by the Gemini part loop are exactly the
function-call parts, enumerated from the running counter. -/
theorem gemParts_toolCalls :
    ∀ (parts : List GeminiPart) (st : GemState),
      (geminiRunParts parts st).toolCalls
        = st.toolCalls ++ ((parts.filterMap (fun p => p.functionCall)).enumFrom st.toolCallIndex).map
            (fun p => ToolCall.mk ("call_" ++ toString p.1) p.2.name p.2.args) := by
  intro parts
  induction parts with
  | nil => intro st; simp [geminiRunParts]
  | cons p rest ih =>
    intro st
    simp only [geminiRunParts]
    cases hfc : p.functionCall with
    | none =>
      have hstep : (geminiPartStep st p).toolCalls = st.toolCalls
          ∧ (geminiPartStep st p).toolCallIndex = st.toolCallIndex := by
        unfold geminiPartStep
        rw [hfc]
        constructor <;> split <;> rfl
      rw [ih, hstep.1, hstep.2]
      simp [List.filterMap_cons, hfc]
    | some fc =>
      have hstep : (geminiPartStep st p).toolCalls
            = st.toolCalls ++ [ToolCall.mk ("call_" ++ toString st.toolCallIndex) fc.name fc.args]
          ∧ (geminiPartStep st p).toolCallIndex = st.toolCallIndex + 1 := by
        unfold geminiPartStep
        rw [hfc]
        constructor <;> split <;> rfl
      rw [ih, hstep.1, hstep.2]
      simp [List.filterMap_cons, hfc, List.enumFrom]

/-- Splitting a mapped list at a middle element of its image. -/
theorem map_split {α β : Type _} (f : α → β) :
    ∀ (p : List β) (l : List α) (m : β) (q : List β),
      l.map f = p ++ m :: q →
      ∃ l1 a l2, l = l1 ++ a :: l2 ∧ l1.map f = p ∧ f a = m ∧ l2.map f = q := by
  intro p
  induction p with
  | nil =>
    intro l m q h
    cases l with
    | nil => simp at h
    | cons a l2 =>
      simp only [List.map_cons, List.nil_append, List.cons.injEq] at h
      exact ⟨[], a, l2, rfl, rfl, h.1, h.2⟩
  | cons b p ih =>
    intro l m q h
    cases l with
    | nil => simp at h
    | cons a l2 =>
      simp only [List.map_cons, List.cons_append, List.cons.injEq] at h
      obtain ⟨l1, a1, l3, heq, h1, h2, h3⟩ := ih l2 m q h.2
      exact ⟨a :: l1, a1, l3, by rw [heq, List.cons_append], by simp [h.1, h1], h2, h3⟩

/-- In a list whose image is duplicate-free, elements away from the
middle element map differently. -/
theorem nodup_split_ne {α β : Type _} (f : α → β) (l1 : List α) (a : α) (l2 : List α)
    (h : ((l1 ++ a :: l2).map f).Nodup) :
    ∀ b ∈ l1 ++ l2, ¬ f b = f a := by
  intro b hb hEq
  rw [List.map_append, List.map_cons] at h
  have h1 := (List.nodup_cons.mp (List.nodup_middle.mp h)).1
  apply h1
  rw [← hEq, ← List.map_append]
  exact List.mem_map_of_mem f hb

/-- A lookup misses exactly the keys outside the association list. -/
theorem lookupA_eq_none {κ α : Type _} [DecidableEq κ] :
    ∀ (m : List (κ × α)) (k : κ), lookupA m k = none ↔ k ∉ m.map Prod.fst := by
  intro m k
  induction m with
  | nil => simp [lookupA]
  | cons hd tl ih =>
    by_cases hk : hd.1 = k
    · simp [lookupA, hk]
    · have hkk : ¬ k = hd.1 := fun hh => hk hh.symm
      simp [lookupA, hk, ih, hkk]

/-- Insertion at one key leaves lookups at other keys unchanged. -/
theorem lookupA_insertA_ne {κ α : Type _} [DecidableEq κ]
    (m : List (κ × α)) (k k' : κ) (h : ¬ k' = k) (v : α) :
    lookupA (insertA m k v) k' = lookupA m k' := by
  have hkk : ¬ k = k' := fun hh => h hh.symm
  induction m with
  | nil => simp [insertA, lookupA, hkk]
  | cons hd tl ih =>
    by_cases hk : hd.1 = k
    · have hne : ¬ hd.1 = k' := by rw [hk]; intro hh; exact h hh.symm
      simp [insertA, hk, lookupA, hne, hkk]
    · by_cases hk' : hd.1 = k'
      · simp [insertA, hk, lookupA, hk', h, hkk]
      · simp [insertA, hk, lookupA, hk', ih]

/-- Erasure at one key leaves lookups at other keys unchanged. -/
theorem lookupA_eraseA_ne {κ α : Type _} [DecidableEq κ]
    (m : List (κ × α)) (k k' : κ) (h : ¬ k' = k) :
    lookupA (eraseA m k) k' = lookupA m k' := by
  have hkk : ¬ k = k' := fun hh => h hh.symm
  induction m with
  | nil => simp [eraseA]
  | cons hd tl ih =>
    by_cases hk : hd.1 = k
    · have hne : ¬ hd.1 = k' := by rw [hk]; intro hh; exact h hh.symm
      simp [eraseA, hk, lookupA, hne, hkk]
    · by_cases hk' : hd.1 = k'
      · simp [eraseA, hk, lookupA, hk', h, hkk]
      · simp [eraseA, hk, lookupA, hk', ih]

/-- With duplicate-free keys, erasing a key removes it entirely. -/
theorem lookupA_eraseA_self {κ α : Type _} [DecidableEq κ] :
    ∀ (m : List (κ × α)) (k : κ), (m.map Prod.fst).Nodup →
      lookupA (eraseA m k) k = none := by
  intro m k
  induction m with
  | nil => intro _; simp [eraseA, lookupA]
  | cons hd tl ih =>
    intro hnd
    simp only [List.map_cons, List.nodup_cons] at hnd
    by_cases hk : hd.1 = k
    · rw [show eraseA (hd :: tl) k = tl from by simp [eraseA, hk]]
      rw [lookupA_eq_none, ← hk]
      exact hnd.1
    · simp [eraseA, hk, lookupA, ih hnd.2]

/-- Replacing a present key keeps the key list unchanged. -/
theorem keys_insertA_found {κ α : Type _} [DecidableEq κ] :
    ∀ (m : List (κ × α)) (k : κ) (v v0 : α), lookupA m k = some v0 →
      (insertA m k v).map Prod.fst = m.map Prod.fst := by
  intro m k v
  induction m with
  | nil => intro v0 h; simp [lookupA] at h
  | cons hd tl ih =>
    intro v0 h
    by_cases hk : hd.1 = k
    · simp [insertA, hk]
    · simp only [lookupA, hk, ite_false] at h
      simp [insertA, hk, ih v0 h]

/-- Insertion preserves duplicate-freedom of the key list. -/
theorem keysNodup_insertA {κ α : Type _} [DecidableEq κ]
    (m : List (κ × α)) (k : κ) (v : α) (hnd : (m.map Prod.fst).Nodup) :
    ((insertA m k v).map Prod.fst).Nodup := by
  cases h : lookupA m k with
  | none =>
    rw [insertA_absent m k v h]
    have hk : k ∉ m.map Prod.fst := (lookupA_eq_none m k).mp h
    rw [List.map_append, List.nodup_append]
    refine ⟨hnd, by simp, ?_⟩
    intro a ha hb
    simp at hb
    rw [hb] at ha
    exact hk ha
  | some v0 =>
    rw [keys_insertA_found m k v v0 h]
    exact hnd

/-- Keys surviving an erasure were keys before it. -/
theorem keys_eraseA_subset {κ α : Type _} [DecidableEq κ] :
    ∀ (m : List (κ × α)) (k a : κ), a ∈ (eraseA m k).map Prod.fst → a ∈ m.map Prod.fst := by
  intro m k a
  induction m with
  | nil => intro h; simp [eraseA] at h
  | cons hd tl ih =>
    by_cases hk : hd.1 = k
    · intro h
      simp only [eraseA, hk, ite_true] at h
      simp [h]
    · intro h
      simp only [eraseA, hk, ite_false, List.map_cons, List.mem_cons] at h
      rcases h with h | h
      · simp [h]
      · simp [ih h]

/-- Erasure preserves duplicate-freedom of the key list. -/
theorem keysNodup_eraseA {κ α : Type _} [DecidableEq κ] :
    ∀ (m : List (κ × α)) (k : κ), (m.map Prod.fst).Nodup →
      ((eraseA m k).map Prod.fst).Nodup := by
  intro m k
  induction m with
  | nil => intro _; simp [eraseA]
  | cons hd tl ih =>
    intro hnd
    simp only [List.map_cons, List.nodup_cons] at hnd
    by_cases hk : hd.1 = k
    · simp [eraseA, hk, hnd.2]
    · simp only [eraseA, hk, ite_false, List.map_cons, List.nodup_cons]
      exact ⟨fun hmem => hnd.1 (keys_eraseA_subset tl k hd.1 hmem), ih hnd.2⟩

/-- Looking up a key stored past a prefix free of that key. -/
theorem lookupA_middle {κ α : Type _} [DecidableEq κ]
    (m1 : List (κ × α)) (k : κ) (h : k ∉ m1.map Prod.fst) (v : α) (m2 : List (κ × α)) :
    lookupA (m1 ++ (k, v) :: m2) k = some v := by
  rw [lookupA_append_none m1 _ k ((lookupA_eq_none m1 k).mpr h)]
  simp [lookupA]

/-- Replacing at a key stored past a prefix free of that key. -/
theorem insertA_middle {κ α : Type _} [DecidableEq κ] :
    ∀ (m1 : List (κ × α)) (k : κ) (v w : α) (m2 : List (κ × α)),
      k ∉ m1.map Prod.fst →
      insertA (m1 ++ (k, v) :: m2) k w = m1 ++ (k, w) :: m2 := by
  intro m1
  induction m1 with
  | nil => intro k v w m2 _; simp [insertA]
  | cons hd tl ih =>
    intro k v w m2 h
    simp only [List.map_cons, List.mem_cons, not_or] at h
    have hk : ¬ hd.1 = k := fun hh => h.1 hh.symm
    simp [insertA, hk, ih k v w m2 h.2]

/-- Consuming the head of the drop advances the join of the take. -/
theorem joinTake_dropHead :
    ∀ (l : List String) (j : Nat) (f : String) (fs : List String),
      l.drop j = f :: fs →
      String.join (l.take j) ++ f = String.join (l.take (j+1)) ∧ l.drop (j+1) = fs := by
  intro l
  induction l with
  | nil => intro j f fs h; simp at h
  | cons a l ih =>
    intro j f fs h
    cases j with
    | zero =>
      simp only [List.drop_zero] at h
      injection h with h1 h2
      subst h1
      subst h2
      exact ⟨by simp [String.join], by simp⟩
    | succ j =>
      simp only [List.drop_succ_cons] at h
      obtain ⟨h1, h2⟩ := ih j f fs h
      refine ⟨?_, by simpa using h2⟩
      rw [List.take_succ_cons, List.take_succ_cons, joinConcat, joinConcat,
        String.append_assoc, h1]

/-- An element appended at the end may be rotated to the front. -/
theorem perm_snoc {α : Type _} (a : α) (l : List α) : (l ++ [a]).Perm (a :: l) := by
  simp

/-- Replacing the distinguished middle element on both sides of a
permutation. -/
theorem perm_replace {α : Type _} (l1 l2 r1 r2 : List α) (a b : α)
    (h : (l1 ++ a :: l2).Perm (r1 ++ a :: r2)) :
    (l1 ++ b :: l2).Perm (r1 ++ b :: r2) := by
  have h1 : (a :: (l1 ++ l2)).Perm (a :: (r1 ++ r2)) :=
    (List.perm_middle.symm.trans h).trans List.perm_middle
  exact (List.perm_middle.trans (h1.cons_inv.cons b)).trans List.perm_middle.symm

/-- The keys of a builders map built from group entries. -/
theorem oEntry_keys :
    ∀ (act : List (OGroup × OProg)),
      (act.map oEntryOf).map Prod.fst = act.map (fun gp => gp.1.callID) := by
  intro act
  induction act with
  | nil => rfl
  | cons hd tl ih => simp [oEntryOf, ih]

/-- Joining a one-element list. -/
theorem joinSingleton (s : String) : String.join [s] = s := by
  rw [joinConcat]
  simp [String.join]

/-- Invariant induction along an interleaved Anthropic stream: from a
state whose builders agree with the groups' progress, the run succeeds
and appends exactly the still-unemitted groups' tool calls, in some
order. -/
theorem anthWeaveAux (parse : String → Option ArgsMap) {ls : List (List SseEvent)}
    {s : List SseEvent} (hw : Weave ls s) :
    ∀ (gps : List (AGroup × AProg)) (st : AnthState),
      ls = gps.map (fun gp => aRemOf gp.1 gp.2) →
      (gps.map (fun gp => gp.1.index)).Nodup →
      (∀ gp ∈ gps, aProgOK gp.1 gp.2) →
      (∀ gp ∈ gps, lookupA st.builders gp.1.index = aBuilderOf gp.1 gp.2) →
      (st.builders.map Prod.fst).Nodup →
      ∃ st1 tc, anthropicRun parse s st = .ok st1
        ∧ st1.toolCalls = st.toolCalls ++ tc
        ∧ tc.Perm ((gps.filter aliveA).map (fun gp => anthExpected parse gp.1)) := by
  induction hw with
  | done hls =>
    intro gps st hmap hnd hok hlk hbnd
    refine ⟨st, [], rfl, by simp, ?_⟩
    have hfin : gps.filter aliveA = [] := by
      rw [List.filter_eq_nil_iff]
      intro gp hgp
      have hrem : aRemOf gp.1 gp.2 = [] := by
        apply hls
        rw [hmap]
        exact List.mem_map_of_mem _ hgp
      obtain ⟨g, p⟩ := gp
      cases p with
      | pending => simp [aRemOf, anthGroupEvents] at hrem
      | working j => simp [aRemOf] at hrem
      | finished => simp [aliveA]
    rw [hfin]
    simp
  | step pre x l post hw ih =>
    intro gps st hmap hnd hok hlk hbnd
    obtain ⟨g1, gp, g2, hgps, hpre, hx, hpost⟩ := map_split _ pre gps (x :: l) post hmap.symm
    subst hgps
    obtain ⟨g, p⟩ := gp
    simp only at hx
    cases p with
    | finished => simp [aRemOf] at hx
    | pending =>
      rw [show aRemOf g AProg.pending
            = anthStartEvent g ::
              (g.frags.map (anthDeltaEvent g.index) ++ [anthStopEvent g.index]) from rfl] at hx
      injection hx with hx1 hx2
      subst hx1
      subst hx2
      obtain ⟨st1, tc, hrun, htc, hperm⟩ := ih (g1 ++ (g, AProg.working 0) :: g2)
        { st with builders := insertA st.builders g.index ⟨g.id, g.name, ""⟩ }
        (by
          rw [List.map_append, List.map_cons, hpre, hpost]
          simp [aRemOf])
        (by simpa using hnd)
        (fun gp' hgp' => by
          rcases List.mem_append.mp hgp' with h1 | h1
          · exact hok gp' (List.mem_append_left _ h1)
          · rcases List.mem_cons.mp h1 with h2 | h2
            · rw [h2]; simp [aProgOK]
            · exact hok gp' (List.mem_append_right _ (List.mem_cons_of_mem _ h2)))
        (fun gp' hgp' => by
          rcases List.mem_append.mp hgp' with h1 | h1
          · exact (lookupA_insertA_ne st.builders g.index gp'.1.index
              (nodup_split_ne (fun gp => gp.1.index) g1 (g, AProg.pending) g2 hnd gp'
                (List.mem_append_left _ h1)) ⟨g.id, g.name, ""⟩).trans
              (hlk gp' (List.mem_append_left _ h1))
          · rcases List.mem_cons.mp h1 with h2 | h2
            · rw [h2]
              exact lookupA_insertA_self st.builders g.index ⟨g.id, g.name, ""⟩
            · exact (lookupA_insertA_ne st.builders g.index gp'.1.index
                (nodup_split_ne (fun gp => gp.1.index) g1 (g, AProg.pending) g2 hnd gp'
                  (List.mem_append_right _ h2)) ⟨g.id, g.name, ""⟩).trans
                (hlk gp' (List.mem_append_right _ (List.mem_cons_of_mem _ h2))))
        (keysNodup_insertA st.builders g.index ⟨g.id, g.name, ""⟩ hbnd)
      refine ⟨st1, tc, ?_, ?_, ?_⟩
      · rw [anthropicRun_cons_ok parse _ _ st _ (anthStep_start parse st g)]
        exact hrun
      · exact htc
      · have hsame : ((g1 ++ (g, AProg.pending) :: g2).filter aliveA).map
            (fun gp => anthExpected parse gp.1)
            = ((g1 ++ (g, AProg.working 0) :: g2).filter aliveA).map
              (fun gp => anthExpected parse gp.1) := by
          simp [List.filter_append, List.filter_cons, aliveA]
        rw [hsame]
        exact hperm
    | working j =>
      have hj : j ≤ g.frags.length :=
        hok _ (List.mem_append_right _ (List.mem_cons_self _ _))
      cases hdrop : g.frags.drop j with
      | cons f fs =>
        have hx' : aRemOf g (AProg.working j)
            = anthDeltaEvent g.index f ::
              (fs.map (anthDeltaEvent g.index) ++ [anthStopEvent g.index]) := by
          simp [aRemOf, hdrop]
        rw [hx'] at hx
        injection hx with hx1 hx2
        subst hx1
        subst hx2
        obtain ⟨hjoin, hdrop1⟩ := joinTake_dropHead g.frags j f fs hdrop
        have hjlt : j < g.frags.length := by
          rcases Nat.lt_or_ge j g.frags.length with h | h
          · exact h
          · rw [List.drop_eq_nil_of_le h] at hdrop
            simp at hdrop
        have hlkg : lookupA st.builders g.index
            = some ⟨g.id, g.name, String.join (g.frags.take j)⟩ :=
          hlk _ (List.mem_append_right _ (List.mem_cons_self _ _))
        have hstep : anthropicStep parse st (anthDeltaEvent g.index f)
            = .ok { st with
                    builders := insertA st.builders g.index
                      ⟨g.id, g.name, String.join (g.frags.take (j+1))⟩ } := by
          rw [anthStep_delta parse st g.index f ⟨g.id, g.name, String.join (g.frags.take j)⟩ hlkg]
          dsimp only
          rw [hjoin]
        obtain ⟨st1, tc, hrun, htc, hperm⟩ := ih (g1 ++ (g, AProg.working (j+1)) :: g2)
          { st with
            builders := insertA st.builders g.index
              ⟨g.id, g.name, String.join (g.frags.take (j+1))⟩ }
          (by
            rw [List.map_append, List.map_cons, hpre, hpost]
            simp [aRemOf, hdrop1])
          (by simpa using hnd)
          (fun gp' hgp' => by
            rcases List.mem_append.mp hgp' with h1 | h1
            · exact hok gp' (List.mem_append_left _ h1)
            · rcases List.mem_cons.mp h1 with h2 | h2
              · rw [h2]; exact hjlt
              · exact hok gp' (List.mem_append_right _ (List.mem_cons_of_mem _ h2)))
          (fun gp' hgp' => by
            rcases List.mem_append.mp hgp' with h1 | h1
            · exact (lookupA_insertA_ne st.builders g.index gp'.1.index
                (nodup_split_ne (fun gp => gp.1.index) g1 (g, AProg.working j) g2 hnd gp'
                  (List.mem_append_left _ h1))
                ⟨g.id, g.name, String.join (g.frags.take (j+1))⟩).trans
                (hlk gp' (List.mem_append_left _ h1))
            · rcases List.mem_cons.mp h1 with h2 | h2
              · rw [h2]
                exact lookupA_insertA_self st.builders g.index
                  ⟨g.id, g.name, String.join (g.frags.take (j+1))⟩
              · exact (lookupA_insertA_ne st.builders g.index gp'.1.index
                  (nodup_split_ne (fun gp => gp.1.index) g1 (g, AProg.working j) g2 hnd gp'
                    (List.mem_append_right _ h2))
                  ⟨g.id, g.name, String.join (g.frags.take (j+1))⟩).trans
                  (hlk gp' (List.mem_append_right _ (List.mem_cons_of_mem _ h2))))
          (keysNodup_insertA st.builders g.index
            ⟨g.id, g.name, String.join (g.frags.take (j+1))⟩ hbnd)
        refine ⟨st1, tc, ?_, ?_, ?_⟩
        · rw [anthropicRun_cons_ok parse _ _ st _ hstep]
          exact hrun
        · exact htc
        · have hsame : ((g1 ++ (g, AProg.working j) :: g2).filter aliveA).map
              (fun gp => anthExpected parse gp.1)
              = ((g1 ++ (g, AProg.working (j+1)) :: g2).filter aliveA).map
                (fun gp => anthExpected parse gp.1) := by
            simp [List.filter_append, List.filter_cons, aliveA]
          rw [hsame]
          exact hperm
      | nil =>
        have hx' : aRemOf g (AProg.working j) = anthStopEvent g.index :: [] := by
          simp [aRemOf, hdrop]
        rw [hx'] at hx
        injection hx with hx1 hx2
        subst hx1
        subst hx2
        have htake : g.frags.take j = g.frags :=
          List.take_of_length_le (List.drop_eq_nil_iff.mp hdrop)
        have hlkg : lookupA st.builders g.index
            = some ⟨g.id, g.name, String.join g.frags⟩ := by
          have h := hlk ((g, AProg.working j))
            (List.mem_append_right _ (List.mem_cons_self _ _))
          rw [h]
          simp [aBuilderOf, htake]
        have hstep := anthStep_stop parse st g.index ⟨g.id, g.name, String.join g.frags⟩ hlkg
        obtain ⟨st1, tc, hrun, htc, hperm⟩ := ih (g1 ++ (g, AProg.finished) :: g2)
          { st with toolCalls := st.toolCalls ++ [anthExpected parse g],
                    builders := eraseA st.builders g.index }
          (by
            rw [List.map_append, List.map_cons, hpre, hpost]
            simp [aRemOf])
          (by simpa using hnd)
          (fun gp' hgp' => by
            rcases List.mem_append.mp hgp' with h1 | h1
            · exact hok gp' (List.mem_append_left _ h1)
            · rcases List.mem_cons.mp h1 with h2 | h2
              · rw [h2]; simp [aProgOK]
              · exact hok gp' (List.mem_append_right _ (List.mem_cons_of_mem _ h2)))
          (fun gp' hgp' => by
            rcases List.mem_append.mp hgp' with h1 | h1
            · exact (lookupA_eraseA_ne st.builders g.index gp'.1.index
                (nodup_split_ne (fun gp => gp.1.index) g1 (g, AProg.working j) g2 hnd gp'
                  (List.mem_append_left _ h1))).trans
                (hlk gp' (List.mem_append_left _ h1))
            · rcases List.mem_cons.mp h1 with h2 | h2
              · rw [h2]
                exact lookupA_eraseA_self st.builders g.index hbnd
              · exact (lookupA_eraseA_ne st.builders g.index gp'.1.index
                  (nodup_split_ne (fun gp => gp.1.index) g1 (g, AProg.working j) g2 hnd gp'
                    (List.mem_append_right _ h2))).trans
                  (hlk gp' (List.mem_append_right _ (List.mem_cons_of_mem _ h2))))
          (keysNodup_eraseA st.builders g.index hbnd)
        refine ⟨st1, anthExpected parse g :: tc, ?_, ?_, ?_⟩
        · rw [anthropicRun_cons_ok parse _ _ st _ hstep]
          exact hrun
        · rw [htc]
          dsimp only
          rw [List.append_assoc]
          rfl
        · have hsplit : ((g1 ++ (g, AProg.working j) :: g2).filter aliveA).map
              (fun gp => anthExpected parse gp.1)
              = (g1.filter aliveA).map (fun gp => anthExpected parse gp.1)
                ++ anthExpected parse g ::
                  (g2.filter aliveA).map (fun gp => anthExpected parse gp.1) := by
            simp [List.filter_append, List.filter_cons, aliveA]
          have hdropped : ((g1 ++ (g, AProg.finished) :: g2).filter aliveA).map
              (fun gp => anthExpected parse gp.1)
              = (g1.filter aliveA).map (fun gp => anthExpected parse gp.1)
                ++ (g2.filter aliveA).map (fun gp => anthExpected parse gp.1) := by
            simp [List.filter_append, List.filter_cons, aliveA]
          rw [hsplit]
          rw [hdropped] at hperm
          exact (hperm.cons (anthExpected parse g)).trans List.perm_middle.symm

/-- Invariant induction along an interleaved OpenAI stream: the builders
map always holds exactly one entry per started group, matching that
group's progress, and at the end of the weave every group is finished. -/
theorem oaWeaveAux {ls : List (List OpenAIStreamEvent)} {s : List OpenAIStreamEvent}
    (hw : Weave ls s) :
    ∀ (gps : List (OGroup × OProg)) (st : OAState) (act : List (OGroup × OProg)),
      ls = gps.map (fun gp => oRemOf gp.1 gp.2) →
      (∀ gp ∈ gps, ¬ gp.1.callID = "") →
      (gps.map (fun gp => gp.1.callID)).Nodup →
      (∀ gp ∈ gps, oProgOK gp.1 gp.2) →
      st.builders = act.map oEntryOf →
      act.Perm (gps.filter startedO) →
      ∃ act1 : List (OGroup × OProg),
        (openAIRun s st).builders = act1.map oEntryOf
        ∧ act1.Perm (gps.map (fun gp => (gp.1, OProg.finished))) := by
  induction hw with
  | done hls =>
    intro gps st act hmap hcid hnd hok hb hperm
    refine ⟨act, hb, ?_⟩
    have hall : ∀ gp ∈ gps, gp.2 = OProg.finished := by
      intro gp hgp
      have hrem : oRemOf gp.1 gp.2 = [] := by
        apply hls
        rw [hmap]
        exact List.mem_map_of_mem _ hgp
      obtain ⟨g, p⟩ := gp
      cases p with
      | pending => simp [oRemOf, oGroupEvents] at hrem
      | working j => simp [oRemOf] at hrem
      | finished => rfl
    have hfil : gps.filter startedO = gps := by
      rw [List.filter_eq_self]
      intro gp hgp
      obtain ⟨g, p⟩ := gp
      rw [show p = OProg.finished from hall (g, p) hgp]
      rfl
    have hid : gps.map (fun gp => (gp.1, OProg.finished)) = gps := by
      conv_rhs => rw [← List.map_id gps]
      apply List.map_congr_left
      intro gp hgp
      obtain ⟨g, p⟩ := gp
      rw [show p = OProg.finished from hall (g, p) hgp]
      rfl
    rw [hfil] at hperm
    rw [hid]
    exact hperm
  | step pre x l post hw ih =>
    intro gps st act hmap hcid hnd hok hb hperm
    obtain ⟨g1, gp, g2, hgps, hpre, hx, hpost⟩ := map_split _ pre gps (x :: l) post hmap.symm
    subst hgps
    obtain ⟨g, p⟩ := gp
    simp only at hx
    have hgcid : ¬ g.callID = "" :=
      hcid _ (List.mem_append_right _ (List.mem_cons_self _ _))
    have hactnd : (act.map (fun gp => gp.1.callID)).Nodup := by
      have h1 : (((g1 ++ (g, p) :: g2).filter startedO).map
          (fun gp => gp.1.callID)).Nodup :=
        hnd.sublist ((List.filter_sublist _).map _)
      exact ((hperm.map (fun gp => gp.1.callID)).nodup_iff).mpr h1
    cases p with
    | finished => simp [oRemOf] at hx
    | pending =>
      have hnotin : g.callID ∉ act.map (fun gp => gp.1.callID) := by
        intro hmem
        obtain ⟨gp', hgp', hcid'⟩ := List.mem_map.mp hmem
        have hgf := hperm.subset hgp'
        have hmem2 := List.mem_of_mem_filter hgf
        have hst := List.of_mem_filter hgf
        rcases List.mem_append.mp hmem2 with h1 | h1
        · exact nodup_split_ne (fun gp => gp.1.callID) g1 (g, OProg.pending) g2 hnd gp'
            (List.mem_append_left _ h1) hcid'
        · rcases List.mem_cons.mp h1 with h2 | h2
          · rw [h2] at hst
            simp [startedO] at hst
          · exact nodup_split_ne (fun gp => gp.1.callID) g1 (g, OProg.pending) g2 hnd gp'
              (List.mem_append_right _ h2) hcid'
      have hlknone : lookupA st.builders g.callID = none := by
        rw [hb, lookupA_eq_none, oEntry_keys]
        exact hnotin
      cases hfr : g.frags with
      | cons f fs =>
        have hx' : oRemOf g OProg.pending
            = oDeltaEvent g.callID f :: (fs.map (oDeltaEvent g.callID) ++ [oDoneEvent g]) := by
          simp [oRemOf, oGroupEvents, hfr]
        rw [hx'] at hx
        injection hx with hx1 hx2
        subst hx1
        subst hx2
        have hstep : openAIStep st (oDeltaEvent g.callID f)
            = { st with builders := st.builders ++ [(g.callID, ⟨g.callID, "", f⟩)] } := by
          rw [oStep_delta_new st g.callID f hgcid hlknone]
          rw [insertA_absent st.builders g.callID _ hlknone]
        have hentry : oEntryOf (g, OProg.working 1) = (g.callID, ⟨g.callID, "", f⟩) := by
          simp [oEntryOf, oBuilt, hfr, joinSingleton]
        obtain ⟨act1, hb1, hp1⟩ := ih (g1 ++ (g, OProg.working 1) :: g2)
          { st with builders := st.builders ++ [(g.callID, ⟨g.callID, "", f⟩)] }
          (act ++ [(g, OProg.working 1)])
          (by
            rw [List.map_append, List.map_cons, hpre, hpost]
            simp [oRemOf, hfr])
          (fun gp' hgp' => by
            rcases List.mem_append.mp hgp' with h1 | h1
            · exact hcid gp' (List.mem_append_left _ h1)
            · rcases List.mem_cons.mp h1 with h2 | h2
              · rw [h2]; exact hgcid
              · exact hcid gp' (List.mem_append_right _ (List.mem_cons_of_mem _ h2)))
          (by simpa using hnd)
          (fun gp' hgp' => by
            rcases List.mem_append.mp hgp' with h1 | h1
            · exact hok gp' (List.mem_append_left _ h1)
            · rcases List.mem_cons.mp h1 with h2 | h2
              · rw [h2]
                exact ⟨Nat.le_refl 1, by rw [hfr]; simp⟩
              · exact hok gp' (List.mem_append_right _ (List.mem_cons_of_mem _ h2)))
          (by
            dsimp only
            rw [List.map_append, hb]
            simp [hentry])
          (by
            have hmid : (g1 ++ (g, OProg.pending) :: g2).filter startedO
                = g1.filter startedO ++ g2.filter startedO := by
              simp [List.filter_append, List.filter_cons, startedO]
            have hmid2 : (g1 ++ (g, OProg.working 1) :: g2).filter startedO
                = g1.filter startedO ++ (g, OProg.working 1) :: g2.filter startedO := by
              simp [List.filter_append, List.filter_cons, startedO]
            rw [hmid2]
            rw [hmid] at hperm
            exact ((hperm.append_right _).trans (perm_snoc _ _)).trans List.perm_middle.symm)
        refine ⟨act1, ?_, ?_⟩
        · simp only [openAIRun]
          rw [hstep]
          exact hb1
        · have hsame : (g1 ++ (g, OProg.pending) :: g2).map (fun gp => (gp.1, OProg.finished))
              = (g1 ++ (g, OProg.working 1) :: g2).map (fun gp => (gp.1, OProg.finished)) := by
            simp
          rw [hsame]
          exact hp1
      | nil =>
        have hx' : oRemOf g OProg.pending = oDoneEvent g :: [] := by
          simp [oRemOf, oGroupEvents, hfr]
        rw [hx'] at hx
        injection hx with hx1 hx2
        subst hx1
        subst hx2
        have hbuf : oExpectedBuf g = g.doneArgs := by
          unfold oExpectedBuf
          rw [hfr]
          by_cases hda : g.doneArgs = ""
          · simp [hda, String.join]
          · simp [hda]
        have hstep : openAIStep st (oDoneEvent g)
            = { st with
                builders := st.builders ++ [(g.callID, ⟨g.callID, g.name, g.doneArgs⟩)] } := by
          rw [oStep_done_new st g hgcid hlknone]
          rw [insertA_absent st.builders g.callID _ hlknone]
        have hentry : oEntryOf (g, OProg.finished)
            = (g.callID, ⟨g.callID, g.name, g.doneArgs⟩) := by
          simp [oEntryOf, oBuilt, hbuf]
        obtain ⟨act1, hb1, hp1⟩ := ih (g1 ++ (g, OProg.finished) :: g2)
          { st with
            builders := st.builders ++ [(g.callID, ⟨g.callID, g.name, g.doneArgs⟩)] }
          (act ++ [(g, OProg.finished)])
          (by
            rw [List.map_append, List.map_cons, hpre, hpost]
            simp [oRemOf])
          (fun gp' hgp' => by
            rcases List.mem_append.mp hgp' with h1 | h1
            · exact hcid gp' (List.mem_append_left _ h1)
            · rcases List.mem_cons.mp h1 with h2 | h2
              · rw [h2]; exact hgcid
              · exact hcid gp' (List.mem_append_right _ (List.mem_cons_of_mem _ h2)))
          (by simpa using hnd)
          (fun gp' hgp' => by
            rcases List.mem_append.mp hgp' with h1 | h1
            · exact hok gp' (List.mem_append_left _ h1)
            · rcases List.mem_cons.mp h1 with h2 | h2
              · rw [h2]; simp [oProgOK]
              · exact hok gp' (List.mem_append_right _ (List.mem_cons_of_mem _ h2)))
          (by
            dsimp only
            rw [List.map_append, hb]
            simp [hentry])
          (by
            have hmid : (g1 ++ (g, OProg.pending) :: g2).filter startedO
                = g1.filter startedO ++ g2.filter startedO := by
              simp [List.filter_append, List.filter_cons, startedO]
            have hmid2 : (g1 ++ (g, OProg.finished) :: g2).filter startedO
                = g1.filter startedO ++ (g, OProg.finished) :: g2.filter startedO := by
              simp [List.filter_append, List.filter_cons, startedO]
            rw [hmid2]
            rw [hmid] at hperm
            exact ((hperm.append_right _).trans (perm_snoc _ _)).trans List.perm_middle.symm)
        refine ⟨act1, ?_, ?_⟩
        · simp only [openAIRun]
          rw [hstep]
          exact hb1
        · have hsame : (g1 ++ (g, OProg.pending) :: g2).map (fun gp => (gp.1, OProg.finished))
              = (g1 ++ (g, OProg.finished) :: g2).map (fun gp => (gp.1, OProg.finished)) := by
            simp
          rw [hsame]
          exact hp1
    | working j =>
      have hokj : 1 ≤ j ∧ j ≤ g.frags.length :=
        hok _ (List.mem_append_right _ (List.mem_cons_self _ _))
      have hjmem : ((g, OProg.working j)) ∈ (g1 ++ (g, OProg.working j) :: g2).filter startedO :=
        List.mem_filter.mpr ⟨List.mem_append_right _ (List.mem_cons_self _ _), rfl⟩
      have hinact : ((g, OProg.working j)) ∈ act := hperm.mem_iff.mpr hjmem
      obtain ⟨a1, a2, hact⟩ := List.append_of_mem hinact
      subst hact
      have hnota1 : g.callID ∉ a1.map (fun gp => gp.1.callID) := by
        rw [List.map_append, List.map_cons] at hactnd
        have h2 := (List.nodup_cons.mp (List.nodup_middle.mp hactnd)).1
        intro hmem
        exact h2 (List.mem_append_left _ hmem)
      have hnota1e : g.callID ∉ (a1.map oEntryOf).map Prod.fst := by
        rw [oEntry_keys]
        exact hnota1
      have hbsplit : st.builders
          = a1.map oEntryOf
            ++ (g.callID, ⟨g.callID, "", String.join (g.frags.take j)⟩)
              :: a2.map oEntryOf := by
        rw [hb, List.map_append, List.map_cons]
        rfl
      have hlkg : lookupA st.builders g.callID
          = some ⟨g.callID, "", String.join (g.frags.take j)⟩ := by
        rw [hbsplit]
        exact lookupA_middle (a1.map oEntryOf) g.callID hnota1e _ _
      have hmid : (g1 ++ (g, OProg.working j) :: g2).filter startedO
          = g1.filter startedO ++ (g, OProg.working j) :: g2.filter startedO := by
        simp [List.filter_append, List.filter_cons, startedO]
      cases hdrop : g.frags.drop j with
      | cons f fs =>
        have hx' : oRemOf g (OProg.working j)
            = oDeltaEvent g.callID f :: (fs.map (oDeltaEvent g.callID) ++ [oDoneEvent g]) := by
          simp [oRemOf, hdrop]
        rw [hx'] at hx
        injection hx with hx1 hx2
        subst hx1
        subst hx2
        obtain ⟨hjoin, hdrop1⟩ := joinTake_dropHead g.frags j f fs hdrop
        have hjlt : j < g.frags.length := by
          rcases Nat.lt_or_ge j g.frags.length with h | h
          · exact h
          · rw [List.drop_eq_nil_of_le h] at hdrop
            simp at hdrop
        have hstep : openAIStep st (oDeltaEvent g.callID f)
            = { st with
                builders := a1.map oEntryOf
                  ++ (g.callID, ⟨g.callID, "", String.join (g.frags.take (j+1))⟩)
                    :: a2.map oEntryOf } := by
          rw [oStep_delta_found st g.callID f
            ⟨g.callID, "", String.join (g.frags.take j)⟩ hgcid hlkg]
          dsimp only
          rw [hjoin, hbsplit]
          rw [insertA_middle (a1.map oEntryOf) g.callID _ _ (a2.map oEntryOf) hnota1e]
        obtain ⟨act1, hb1, hp1⟩ := ih (g1 ++ (g, OProg.working (j+1)) :: g2)
          { st with
            builders := a1.map oEntryOf
              ++ (g.callID, ⟨g.callID, "", String.join (g.frags.take (j+1))⟩)
                :: a2.map oEntryOf }
          (a1 ++ (g, OProg.working (j+1)) :: a2)
          (by
            rw [List.map_append, List.map_cons, hpre, hpost]
            simp [oRemOf, hdrop1])
          (fun gp' hgp' => by
            rcases List.mem_append.mp hgp' with h1 | h1
            · exact hcid gp' (List.mem_append_left _ h1)
            · rcases List.mem_cons.mp h1 with h2 | h2
              · rw [h2]; exact hgcid
              · exact hcid gp' (List.mem_append_right _ (List.mem_cons_of_mem _ h2)))
          (by simpa using hnd)
          (fun gp' hgp' => by
            rcases List.mem_append.mp hgp' with h1 | h1
            · exact hok gp' (List.mem_append_left _ h1)
            · rcases List.mem_cons.mp h1 with h2 | h2
              · rw [h2]
                exact ⟨Nat.succ_le_succ (Nat.zero_le j), hjlt⟩
              · exact hok gp' (List.mem_append_right _ (List.mem_cons_of_mem _ h2)))
          (by
            dsimp only
            rw [List.map_append, List.map_cons]
            rfl)
          (by
            have hmid2 : (g1 ++ (g, OProg.working (j+1)) :: g2).filter startedO
                = g1.filter startedO ++ (g, OProg.working (j+1)) :: g2.filter startedO := by
              simp [List.filter_append, List.filter_cons, startedO]
            rw [hmid2]
            rw [hmid] at hperm
            exact perm_replace a1 a2 (g1.filter startedO) (g2.filter startedO) _ _ hperm)
        refine ⟨act1, ?_, ?_⟩
        · simp only [openAIRun]
          rw [hstep]
          exact hb1
        · have hsame : (g1 ++ (g, OProg.working j) :: g2).map (fun gp => (gp.1, OProg.finished))
              = (g1 ++ (g, OProg.working (j+1)) :: g2).map
                (fun gp => (gp.1, OProg.finished)) := by
            simp
          rw [hsame]
          exact hp1
      | nil =>
        have hx' : oRemOf g (OProg.working j) = oDoneEvent g :: [] := by
          simp [oRemOf, hdrop]
        rw [hx'] at hx
        injection hx with hx1 hx2
        subst hx1
        subst hx2
        have htake : g.frags.take j = g.frags :=
          List.take_of_length_le (List.drop_eq_nil_iff.mp hdrop)
        have hstep : openAIStep st (oDoneEvent g)
            = { st with
                builders := a1.map oEntryOf
                  ++ (g.callID, ⟨g.callID, g.name, oExpectedBuf g⟩) :: a2.map oEntryOf } := by
          rw [oStep_done_found st g ⟨g.callID, "", String.join (g.frags.take j)⟩ hgcid hlkg]
          dsimp only
          rw [hbsplit]
          rw [insertA_middle (a1.map oEntryOf) g.callID _ _ (a2.map oEntryOf) hnota1e]
          rw [htake]
          rfl
        obtain ⟨act1, hb1, hp1⟩ := ih (g1 ++ (g, OProg.finished) :: g2)
          { st with
            builders := a1.map oEntryOf
              ++ (g.callID, ⟨g.callID, g.name, oExpectedBuf g⟩) :: a2.map oEntryOf }
          (a1 ++ (g, OProg.finished) :: a2)
          (by
            rw [List.map_append, List.map_cons, hpre, hpost]
            simp [oRemOf])
          (fun gp' hgp' => by
            rcases List.mem_append.mp hgp' with h1 | h1
            · exact hcid gp' (List.mem_append_left _ h1)
            · rcases List.mem_cons.mp h1 with h2 | h2
              · rw [h2]; exact hgcid
              · exact hcid gp' (List.mem_append_right _ (List.mem_cons_of_mem _ h2)))
          (by simpa using hnd)
          (fun gp' hgp' => by
            rcases List.mem_append.mp hgp' with h1 | h1
            · exact hok gp' (List.mem_append_left _ h1)
            · rcases List.mem_cons.mp h1 with h2 | h2
              · rw [h2]; simp [oProgOK]
              · exact hok gp' (List.mem_append_right _ (List.mem_cons_of_mem _ h2)))
          (by
            dsimp only
            rw [List.map_append, List.map_cons]
            rfl)
          (by
            have hmid2 : (g1 ++ (g, OProg.finished) :: g2).filter startedO
                = g1.filter startedO ++ (g, OProg.finished) :: g2.filter startedO := by
              simp [List.filter_append, List.filter_cons, startedO]
            rw [hmid2]
            rw [hmid] at hperm
            exact perm_replace a1 a2 (g1.filter startedO) (g2.filter startedO) _ _ hperm)
        refine ⟨act1, ?_, ?_⟩
        · simp only [openAIRun]
          rw [hstep]
          exact hb1
        · have hsame : (g1 ++ (g, OProg.working j) :: g2).map (fun gp => (gp.1, OProg.finished))
              = (g1 ++ (g, OProg.finished) :: g2).map (fun gp => (gp.1, OProg.finished)) := by
            simp
          rw [hsame]
          exact hp1

/-- C2 counterexample: the claim requires the N assembled ToolCalls to
appear in the original order of the groups, for every backend and every
interleaved stream.  Two refutations.  `exAnthStream` is an interleaving
of the two Anthropic groups of `exAGroups` in which the first group's
block starts first but stops last: the loop emits the tool calls in
block-stop order, i.e. reversed.  And the OpenAI adapter finalizes by
ranging over the Go map of builders, whose iteration order is
unspecified: iterating the two builders of `exOGroups` in the order
`["b", "a"]` — a valid iteration order of that map — also yields the
tool calls in reversed group order. -/
theorem C2_tool_call_order_counterexample :
    Weave (exAGroups.map anthGroupEvents) exAnthStream
    ∧ (anthOutcome (anthropicRun (fun _ => none) exAnthStream {})).2
        = [⟨"idb", "fnB", []⟩, ⟨"ida", "fnA", []⟩]
    ∧ (anthOutcome (anthropicRun (fun _ => none) exAnthStream {})).2
        ≠ exAGroups.map (anthExpected (fun _ => none))
    ∧ (["b", "a"] : List String).Perm
        ((openAIRun ((exOGroups.map oGroupEvents).flatten) {}).builders.map Prod.fst)
    ∧ openAIFinalize (fun _ => none) (openAIRun ((exOGroups.map oGroupEvents).flatten) {})
        ["b", "a"]
        ≠ exOGroups.map (oExpected (fun _ => none)) := by
  refine ⟨?_, by decide, by decide, by decide, by decide⟩
  exact Weave.step [] (anthStartEvent ⟨0, "ida", "fnA", ["u"]⟩)
    [anthDeltaEvent 0 "u", anthStopEvent 0]
    [[anthStartEvent ⟨1, "idb", "fnB", ["v"]⟩, anthDeltaEvent 1 "v", anthStopEvent 1]]
    (Weave.step [[anthDeltaEvent 0 "u", anthStopEvent 0]]
      (anthStartEvent ⟨1, "idb", "fnB", ["v"]⟩) [anthDeltaEvent 1 "v", anthStopEvent 1] []
      (Weave.step [] (anthDeltaEvent 0 "u") [anthStopEvent 0]
        [[anthDeltaEvent 1 "v", anthStopEvent 1]]
        (Weave.step [[anthStopEvent 0]] (anthDeltaEvent 1 "v") [anthStopEvent 1] []
          (Weave.step [[anthStopEvent 0]] (anthStopEvent 1) [] []
            (Weave.step [] (anthStopEvent 0) [] [[]]
              (Weave.done (by intro l hl; simpa using hl)))))))

/-- C2 amended: for each backend's event shape, a stream containing N
interleaved tool-call event groups (with distinct block indices /
non-empty distinct call ids) yields exactly N ToolCalls, each one's
arguments parsed from the concatenation of its own group's fragments (or
the done event's complete blob when present).  The claimed original-order
emission survives only partially: the Anthropic loop emits in block-stop
order — which is the group order when the groups are contiguous, but not
in general — the OpenAI finalization emits the builders map in Go's
unspecified iteration order, some permutation of the groups, and the
Gemini loop, whose function calls arrive in monolithic parts, emits in
stream order. -/
theorem C2_tool_call_assembly_amended :
    (∀ (parse : String → Option ArgsMap) (groups : List AGroup) (evs : List SseEvent),
      (groups.map (fun g => g.index)).Nodup →
      Weave (groups.map anthGroupEvents) evs →
      (anthOutcome (anthropicRun parse evs {})).1 = true
      ∧ ((anthOutcome (anthropicRun parse evs {})).2).Perm (groups.map (anthExpected parse))
      ∧ ((anthOutcome (anthropicRun parse evs {})).2).length = groups.length)
    ∧ (∀ (parse : String → Option ArgsMap) (groups : List AGroup),
      anthropicRun parse ((groups.map anthGroupEvents).flatten) {}
        = .ok { toolCalls := groups.map (anthExpected parse) })
    ∧ (∀ (parse : String → Option ArgsMap) (groups : List OGroup)
        (evs : List OpenAIStreamEvent),
        (∀ g ∈ groups, ¬ g.callID = "") →
        (groups.map (fun g => g.callID)).Nodup →
        Weave (groups.map oGroupEvents) evs →
        ∀ iterOrder : List String,
          iterOrder.Perm ((openAIRun evs {}).builders.map Prod.fst) →
          (openAIFinalize parse (openAIRun evs {}) iterOrder).Perm
            (groups.map (oExpected parse))
          ∧ (openAIFinalize parse (openAIRun evs {}) iterOrder).length = groups.length)
    ∧ (∀ parts : List GeminiPart,
        (geminiRunParts parts {}).toolCalls
          = (parts.filterMap (fun p => p.functionCall)).enum.map
              (fun p => ToolCall.mk ("call_" ++ toString p.1) p.2.name p.2.args)) := by
  refine ⟨?_, ?_, ?_, ?_⟩
  · intro parse groups evs hnd hw
    obtain ⟨st1, tc, hrun, htc, hperm⟩ := anthWeaveAux parse hw
      (groups.map (fun g => (g, AProg.pending))) {}
      (by rw [List.map_map]; rfl)
      (by rw [List.map_map]; exact hnd)
      (fun gp hgp => by
        obtain ⟨g0, hg0, hEq⟩ := List.mem_map.mp hgp
        rw [← hEq]
        simp [aProgOK])
      (fun gp hgp => by
        obtain ⟨g0, hg0, hEq⟩ := List.mem_map.mp hgp
        rw [← hEq]
        rfl)
      (by simp)
    have htc2 : st1.toolCalls = tc := by simpa using htc
    have hfil : (groups.map (fun g => (g, AProg.pending))).filter aliveA
        = groups.map (fun g => (g, AProg.pending)) := by
      rw [List.filter_eq_self]
      intro gp hgp
      obtain ⟨g0, hg0, hEq⟩ := List.mem_map.mp hgp
      rw [← hEq]
      rfl
    have hperm2 : tc.Perm (groups.map (anthExpected parse)) := by
      rw [hfil, List.map_map] at hperm
      exact hperm
    refine ⟨?_, ?_, ?_⟩
    · rw [hrun]
      rfl
    · rw [hrun]
      show st1.toolCalls.Perm (groups.map (anthExpected parse))
      rw [htc2]
      exact hperm2
    · rw [hrun]
      show st1.toolCalls.length = groups.length
      rw [htc2, hperm2.length_eq]
      simp
  · intro parse groups
    have h := anthGroups_run parse groups {} (by rfl)
    simpa using h
  · intro parse groups evs hcid hnd hw iterOrder hio
    obtain ⟨act1, hb1, hp1⟩ := oaWeaveAux hw (groups.map (fun g => (g, OProg.pending))) {} []
      (by rw [List.map_map]; rfl)
      (fun gp hgp => by
        obtain ⟨g0, hg0, hEq⟩ := List.mem_map.mp hgp
        rw [← hEq]
        exact hcid g0 hg0)
      (by rw [List.map_map]; exact hnd)
      (fun gp hgp => by
        obtain ⟨g0, hg0, hEq⟩ := List.mem_map.mp hgp
        rw [← hEq]
        simp [oProgOK])
      rfl
      (by
        have hfil : (groups.map (fun g => (g, OProg.pending))).filter startedO = [] := by
          rw [List.filter_eq_nil_iff]
          intro gp hgp
          obtain ⟨g0, hg0, hEq⟩ := List.mem_map.mp hgp
          rw [← hEq]
          simp [startedO]
        rw [hfil])
    have hterm : (groups.map (fun g => (g, OProg.pending))).map
        (fun gp => (gp.1, OProg.finished)) = groups.map (fun g => (g, OProg.finished)) := by
      rw [List.map_map]
      rfl
    rw [hterm] at hp1
    have hact1 : act1.map oEntryOf
        = (act1.map Prod.fst).map
          (fun g => (g.callID, FuncCallBuilder.mk g.callID g.name (oExpectedBuf g))) := by
      rw [List.map_map]
      apply List.map_congr_left
      intro gp hgp
      obtain ⟨g0, hg0, hEq⟩ := List.mem_map.mp (hp1.subset hgp)
      rw [← hEq]
      rfl
    have hgsperm : (act1.map Prod.fst).Perm groups := by
      have h := hp1.map Prod.fst
      rw [List.map_map] at h
      rw [show List.map (Prod.fst ∘ fun g => ((g : OGroup), OProg.finished)) groups
            = groups from List.map_id groups] at h
      exact h
    have hkeys : (openAIRun evs {}).builders.map Prod.fst
        = (act1.map Prod.fst).map (fun g => g.callID) := by
      rw [hb1, oEntry_keys, List.map_map]
      rfl
    have hnd2 : ((act1.map Prod.fst).map (fun g => g.callID)).Nodup :=
      ((hgsperm.map (fun g => g.callID)).nodup_iff).mpr hnd
    have hfin : openAIFinalize parse (openAIRun evs {})
        ((act1.map Prod.fst).map (fun g => g.callID))
        = (act1.map Prod.fst).map (oExpected parse) := by
      unfold openAIFinalize
      rw [hb1, hact1]
      have h := oFinalize_entries parse (act1.map Prod.fst) [] hnd2 (fun g _ => rfl)
      simpa using h
    have hiter : iterOrder.Perm ((act1.map Prod.fst).map (fun g => g.callID)) := by
      rw [hkeys] at hio
      exact hio
    have hpfin := hiter.filterMap (fun k =>
      (lookupA (openAIRun evs {}).builders k).map
        (fun b => (⟨b.callID, b.name, (parse b.argsBuffer).getD []⟩ : ToolCall)))
    have hres : (openAIFinalize parse (openAIRun evs {}) iterOrder).Perm
        (groups.map (oExpected parse)) := by
      have h2 : (openAIFinalize parse (openAIRun evs {}) iterOrder).Perm
          ((act1.map Prod.fst).map (oExpected parse)) := by
        rw [← hfin]
        exact hpfin
      exact h2.trans (hgsperm.map (oExpected parse))
    refine ⟨hres, ?_⟩
    rw [hres.length_eq]
    simp
  · intro parts
    have h := gemParts_toolCalls parts {}
    simpa [List.enum] using h

/-- Witness for the amended C2: the interleaved Anthropic stream
`exAnthStream` of the two groups of `exAGroups`, and the two OpenAI
groups of `exOGroups` finalized in the reversed iteration order. -/
theorem C2_tool_call_assembly_amended_witness :
    ((anthOutcome (anthropicRun (fun _ => none) exAnthStream {})).2).Perm
      (exAGroups.map (anthExpected (fun _ => none)))
    ∧ (openAIFinalize (fun _ => none) (openAIRun ((exOGroups.map oGroupEvents).flatten) {})
        ["b", "a"]).Perm (exOGroups.map (oExpected (fun _ => none))) :=
  ⟨(C2_tool_call_assembly_amended.1 (fun _ => none) exAGroups exAnthStream (by decide)
      (Weave.step [] (anthStartEvent ⟨0, "ida", "fnA", ["u"]⟩)
        [anthDeltaEvent 0 "u", anthStopEvent 0]
        [[anthStartEvent ⟨1, "idb", "fnB", ["v"]⟩, anthDeltaEvent 1 "v", anthStopEvent 1]]
        (Weave.step [[anthDeltaEvent 0 "u", anthStopEvent 0]]
          (anthStartEvent ⟨1, "idb", "fnB", ["v"]⟩) [anthDeltaEvent 1 "v", anthStopEvent 1] []
          (Weave.step [] (anthDeltaEvent 0 "u") [anthStopEvent 0]
            [[anthDeltaEvent 1 "v", anthStopEvent 1]]
            (Weave.step [[anthStopEvent 0]] (anthDeltaEvent 1 "v") [anthStopEvent 1] []
              (Weave.step [[anthStopEvent 0]] (anthStopEvent 1) [] []
                (Weave.step [] (anthStopEvent 0) [] [[]]
                  (Weave.done (by intro l hl; simpa using hl))))))))).2.1,
   (C2_tool_call_assembly_amended.2.2.1 (fun _ => none) exOGroups
      ((exOGroups.map oGroupEvents).flatten) (by decide) (by decide)
      (Weave.step [] (oDeltaEvent "a" "x1") [oDoneEvent ⟨"a", "fnA", ["x1"], ""⟩]
        [[oDeltaEvent "b" "x2", oDoneEvent ⟨"b", "fnB", ["x2"], ""⟩]]
        (Weave.step [] (oDoneEvent ⟨"a", "fnA", ["x1"], ""⟩) []
          [[oDeltaEvent "b" "x2", oDoneEvent ⟨"b", "fnB", ["x2"], ""⟩]]
          (Weave.step [[]] (oDeltaEvent "b" "x2") [oDoneEvent ⟨"b", "fnB", ["x2"], ""⟩] []
            (Weave.step [[]] (oDoneEvent ⟨"b", "fnB", ["x2"], ""⟩) [] []
              (Weave.done (by intro l hl; simpa using hl))))))
      ["b", "a"] (by decide)).1⟩

/-- Shape of the client state after issuing a batch of requests: ids are
assigned consecutively, every id has an empty slot registered, and the
log records registration before write for each request. -/
theorem startRequests_spec : ∀ (n : Nat) (st : McpClientState),
    startRequests st n
      = { nextID := st.nextID + n,
          pending := st.pending ++ (List.range' (st.nextID + 1) n).map (fun i => (i, none)),
          log := st.log ++ ((List.range' (st.nextID + 1) n).map (fun i =>
            [McpEvent.registered i, McpEvent.wrote i])).flatten } := by
  intro n
  induction n with
  | zero => intro st; simp [startRequests]
  | succ n ih =>
    intro st
    show startRequests (sendRequestStart st).2 n = _
    rw [ih]
    unfold sendRequestStart
    simp only [List.range'_succ, List.map_cons, List.flatten_cons]
    simp only [McpClientState.mk.injEq]
    refine ⟨by omega, by simp, by simp⟩

/-- Lookup in a slot table built over a list of ids. -/
theorem lookupA_mapSlots {α : Type _} (f : Nat → α) :
    ∀ (ids : List Nat) (j : Nat),
      lookupA (ids.map (fun i => (i, f i))) j = if j ∈ ids then some (f j) else none := by
  intro ids
  induction ids with
  | nil => intro j; simp [lookupA]
  | cons i0 rest ih =>
    intro j
    by_cases h : i0 = j
    · subst h
      simp [lookupA]
    · simp [lookupA, h, ih j, Ne.symm h]

/-- Updating one slot of a slot table built over distinct ids. -/
theorem insertA_mapSlots {α : Type _} (f : Nat → α) :
    ∀ (ids : List Nat), ids.Nodup → ∀ (j : Nat), j ∈ ids → ∀ (v : α),
      insertA (ids.map (fun i => (i, f i))) j v
        = ids.map (fun i => (i, if i = j then v else f i)) := by
  intro ids
  induction ids with
  | nil => intro _ j hj; cases hj
  | cons i0 rest ih =>
    intro hnd j hj v
    simp only [List.nodup_cons] at hnd
    by_cases h : i0 = j
    · subst h
      have htail : List.map (fun i => (i, if i = i0 then v else f i)) rest
          = List.map (fun i => (i, f i)) rest := by
        apply List.map_congr_left
        intro a ha
        have hne : ¬ a = i0 := fun hEq => hnd.1 (hEq ▸ ha)
        simp [hne]
      simp [insertA, htail]
    · have hjr : j ∈ rest := by
        cases List.mem_cons.mp hj with
        | inl hEq => exact absurd hEq.symm h
        | inr hr => exact hr
      simp only [List.map_cons, insertA, if_neg h]
      rw [ih hnd.2 j hjr v]

/-- Routing a batch of responses, in any arrival order, fulfills exactly
the arrived slots with the response carrying the matching id. -/
theorem deliverAll_spec (resp : Nat → JRResponse) (hid : ∀ j, (resp j).id = j)
    (ids : List Nat) (hnd : ids.Nodup) :
    ∀ (arr : List Nat) (f : Nat → Option JRResponse) (nid : Nat) (lg : List McpEvent),
      arr.Nodup → (∀ j ∈ arr, j ∈ ids ∧ f j = none) →
      deliverAll ⟨nid, ids.map (fun i => (i, f i)), lg⟩ (arr.map resp)
        = ⟨nid, ids.map (fun i => (i, if i ∈ arr then some (resp i) else f i)), lg⟩ := by
  intro arr
  induction arr with
  | nil =>
    intro f nid lg _ _
    simp [deliverAll]
  | cons j rest ih =>
    intro f nid lg hand hcond
    simp only [List.nodup_cons] at hand
    obtain ⟨hjids, hfj⟩ := hcond j (by simp)
    have hstep : deliverResponse ⟨nid, ids.map (fun i => (i, f i)), lg⟩ (resp j)
        = ⟨nid, ids.map (fun i => (i, if i = j then some (resp j) else f i)), lg⟩ := by
      unfold deliverResponse
      simp only [hid j, lookupA_mapSlots f ids j, if_pos hjids, hfj]
      rw [insertA_mapSlots f ids hnd j hjids]
    show deliverAll (deliverResponse _ (resp j)) (rest.map resp) = _
    rw [hstep]
    rw [ih (fun i => if i = j then some (resp j) else f i) nid lg hand.2
      (fun j' hj' => ⟨(hcond j' (by simp [hj'])).1, by
        have : ¬ j' = j := fun hEq => hand.1 (hEq ▸ hj')
        simp [this, (hcond j' (by simp [hj'])).2]⟩)]
    congr 1
    apply List.map_congr_left
    intro i _
    by_cases hir : i ∈ rest
    · simp [hir]
    · by_cases hij : i = j
      · subst hij
        simp [hir]
      · simp [hir, hij]

/-- Removing every slot of a slot table empties it. -/
theorem removeSlots_mapSlots :
    ∀ (ids : List Nat) (f : Nat → Option JRResponse) (nid : Nat) (lg : List McpEvent),
      (removeSlots ⟨nid, ids.map (fun i => (i, f i)), lg⟩ ids).pending = [] := by
  intro ids
  induction ids with
  | nil => intro f nid lg; rfl
  | cons i0 rest ih =>
    intro f nid lg
    show (removeSlots (removeSlot _ i0) rest).pending = []
    have hstep : removeSlot (⟨nid, (i0 :: rest).map (fun i => (i, f i)), lg⟩ : McpClientState) i0
        = ⟨nid, rest.map (fun i => (i, f i)), lg⟩ := by
      unfold removeSlot
      simp [eraseA]
    rw [hstep]
    exact ih f nid lg

/-- An ordering fact survives appending to the log. -/
theorem eventPrecedes_append (l l' : List McpEvent) (a b : McpEvent)
    (h : eventPrecedes l a b) : eventPrecedes (l ++ l') a b := by
  obtain ⟨l1, l2, l3, rfl⟩ := h
  exact ⟨l1, l2, l3 ++ l', by simp⟩

/-- An ordering fact survives prepending to the log. -/
theorem eventPrecedes_cons (x : McpEvent) (l : List McpEvent) (a b : McpEvent)
    (h : eventPrecedes l a b) : eventPrecedes (x :: l) a b := by
  obtain ⟨l1, l2, l3, rfl⟩ := h
  exact ⟨x :: l1, l2, l3, by simp⟩

/-- In the start-phase log every request's registration precedes its
write. -/
theorem logFor_precedes :
    ∀ (ids : List Nat) (i : Nat), i ∈ ids →
      eventPrecedes ((ids.map (fun i => [McpEvent.registered i, McpEvent.wrote i])).flatten)
        (.registered i) (.wrote i) := by
  intro ids
  induction ids with
  | nil => intro i hi; cases hi
  | cons i0 rest ih =>
    intro i hi
    simp only [List.map_cons, List.flatten_cons]
    cases List.mem_cons.mp hi with
    | inl hEq =>
      subst hEq
      exact ⟨[], [], (rest.map (fun i => [McpEvent.registered i, McpEvent.wrote i])).flatten,
        by simp⟩
    | inr hr =>
      exact eventPrecedes_cons _ _ _ _ (eventPrecedes_cons _ _ _ _ (ih i hr))

/-- C6: for any batch of concurrent requests over one client, whatever
order the responses arrive in (any permutation), each caller's slot ends
up holding precisely the response whose JSON-RPC id equals the id
assigned to that request; every slot was registered before the request
bytes were written; and once every call finishes, all slots are removed. -/
theorem C6_mcp_request_correlation (n : Nat) (resp : Nat → JRResponse)
    (arrival : List Nat) (hid : ∀ j, (resp j).id = j)
    (hperm : arrival.Perm (List.range' 1 n)) :
    (∀ i ∈ List.range' 1 n,
      awaitedResponse (deliverAll (startRequests {} n) (arrival.map resp)) i = some (resp i))
    ∧ (removeSlots (deliverAll (startRequests {} n) (arrival.map resp))
        (List.range' 1 n)).pending = []
    ∧ (∀ i ∈ List.range' 1 n,
        eventPrecedes (deliverAll (startRequests {} n) (arrival.map resp)).log
          (.registered i) (.wrote i)) := by
  have hstart : startRequests {} n
      = ⟨n, (List.range' 1 n).map (fun i => (i, none)),
          ((List.range' 1 n).map (fun i => [McpEvent.registered i, McpEvent.wrote i])).flatten⟩ := by
    rw [startRequests_spec n {}]
    simp
  have hnd : (List.range' 1 n).Nodup := List.nodup_range' 1 n
  have harrnd : arrival.Nodup := hperm.nodup_iff.mpr hnd
  have hdel := deliverAll_spec resp hid (List.range' 1 n) hnd arrival (fun _ => none) n
    ((List.range' 1 n).map (fun i => [McpEvent.registered i, McpEvent.wrote i])).flatten
    harrnd (fun j hj => ⟨hperm.mem_iff.mp hj, rfl⟩)
  rw [hstart, hdel]
  refine ⟨?_, ?_, ?_⟩
  · intro i hi
    have hia : i ∈ arrival := hperm.mem_iff.mpr hi
    unfold awaitedResponse
    rw [lookupA_mapSlots _ (List.range' 1 n) i]
    simp [hi, hia]
  · exact removeSlots_mapSlots (List.range' 1 n) _ n _
  · intro i hi
    exact logFor_precedes (List.range' 1 n) i hi

/-- Witness for C6: two requests, responses arriving in reversed order. -/
theorem C6_mcp_request_correlation_witness :
    awaitedResponse (deliverAll (startRequests {} 2)
        ([2, 1].map (fun j => JRResponse.mk j "r" none))) 1
      = some (JRResponse.mk 1 "r" none) :=
  (C6_mcp_request_correlation 2 (fun j => JRResponse.mk j "r" none) [2, 1]
    (fun _ => rfl) (by decide)).1 1 (by decide)

end JohnCode
